import Mathlib

/-!
Verification of the `SimpleFs` in-memory block file store from `src/fs.rs`
of the Cog-Os repository.

The Rust code is shallowly embedded: fixed-size arrays (`[T; N]`) become
`List`s whose length is recorded by the well-formedness predicate `WF`
(the Rust types guarantee these lengths, so `WF` carries exactly the
type-level information), bytes (`u8`) become `Nat` (all stored values are
< 256; the sentinel `0xFF` is the literal `255`), and fallible code
returns `Option` where `none` models a Rust panic (an index out of
bounds or a failed `unwrap`).  Operations that can both mutate and fail
return the post-state together with an `Option FsError`, mirroring how a
`&mut self` method leaves its mutations behind when it returns `Err`.
-/

namespace CogFs

/-- `pub const MAX_FILES: usize = 16;` -/
abbrev MAX_FILES : Nat := 16

/-- `pub const FILENAME_LEN: usize = 16;` -/
abbrev FILENAME_LEN : Nat := 16

/-- `const BLOCK_SIZE: usize = 256;` bytes per block -/
abbrev BLOCK_SIZE : Nat := 256

/-- `const BLOCKS: usize = 64;` total blocks, 16 KiB total storage -/
abbrev BLOCKS : Nat := 64

/-- `const MAX_BLOCKS_PER_FILE: usize = 16;` max file size = 4096 bytes -/
abbrev MAX_BLOCKS_PER_FILE : Nat := 16

/-- The `FsError` enum of `fs.rs`.  `TooManyBlocks` renders as
"File too large", `NoSpace` as "No space left". -/
inductive FsError where
  | NotFound
  | AlreadyExists
  | NoSpace
  | NameTooLong
  | TooManyBlocks
  | InvalidArg
deriving DecidableEq, Repr

instance {e : Type} {a : Type} [DecidableEq e] [DecidableEq a] :
    DecidableEq (Except e a)
  | .ok x, .ok y =>
    if h : x = y then isTrue (by rw [h])
    else isFalse (by intro hc; cases hc; exact h rfl)
  | .ok x, .error y => isFalse (by intro hc; cases hc)
  | .error x, .ok y => isFalse (by intro hc; cases hc)
  | .error x, .error y =>
    if h : x = y then isTrue (by rw [h])
    else isFalse (by intro hc; cases hc; exact h rfl)

/-- The `FileEntry` struct: a file-table slot.  `name` is the fixed
`[u8; FILENAME_LEN]` array, `blocks` the `[u8; MAX_BLOCKS_PER_FILE]`
array of block indices where `255` (`0xFF`) means unused. -/
structure FileEntry where
  used : Bool
  name : List Nat
  size : Nat
  blocks : List Nat
  blocks_used : Nat
deriving DecidableEq, Repr

/-- `FileEntry::default()`: unused, zeroed name, no blocks. -/
def defaultEntry : FileEntry :=
  { used := false
    name := List.replicate FILENAME_LEN 0
    size := 0
    blocks := List.replicate MAX_BLOCKS_PER_FILE 255
    blocks_used := 0 }

/-- The `SimpleFs` struct: file table, in-use bitmap, block data. -/
structure SimpleFs where
  entries : List FileEntry
  block_map : List Bool
  data : List (List Nat)
deriving DecidableEq, Repr

/-- `SimpleFs::new()`: empty table, all blocks free and zeroed. -/
def SimpleFs.new : SimpleFs :=
  { entries := List.replicate MAX_FILES defaultEntry
    block_map := List.replicate BLOCKS false
    data := List.replicate BLOCKS (List.replicate BLOCK_SIZE 0) }

/-- The entry in slot `i` (Rust `self.entries[i]`; callers only use
in-range indices, so the default is never observed there). -/
def entryAt (fs : SimpleFs) (i : Nat) : FileEntry :=
  fs.entries.getD i defaultEntry

/-- Index of the first element of `l` satisfying `p`, counting from `i`
(the `iter().enumerate()` scans of `find_entry` / `find_free_entry`). -/
def findIdxFrom (p : α → Bool) : List α → Nat → Option Nat
  | [], _ => none
  | e :: rest, i => if p e then some i else findIdxFrom p rest (i + 1)

/-- `s.trim_end_matches(char::from(0))` on the byte level: drop all
trailing `0x00` bytes.  (In valid UTF-8 a `0x00` byte is always the
one-byte char NUL, so the char-level trim is exactly the byte trim.) -/
def trimTrailingZeros (l : List Nat) : List Nat :=
  (l.reverse.dropWhile (fun b => b == 0)).reverse

/-- Byte-at-a-time UTF-8 validation as the standard range-based
automaton: the state is the number `k` of continuation bytes still
expected together with the admissible range `[lo, hi]` for the *next*
byte (after the first continuation byte the range is always
`0x80..0xBF`).  The leader dispatch is the usual table, rejecting
overlong forms (`0xC0`/`0xC1`, `0xE0 0x80..0x9F`, `0xF0 0x80..0x8F`),
surrogates (`0xED 0xA0..0xBF`) and code points above `U+10FFFF`
(`0xF4 0x90..`, `0xF5..0xFF`), so acceptance coincides with
`core::str::from_utf8(..).is_ok()`. -/
def utf8Aux : Nat → Nat → Nat → List Nat → Bool
  | k, _, _, [] => k == 0
  | 0, _, _, b :: rest =>
    if b ≤ 0x7F then utf8Aux 0 0 0 rest
    else if 0xC2 ≤ b && b ≤ 0xDF then utf8Aux 1 0x80 0xBF rest
    else if b = 0xE0 then utf8Aux 2 0xA0 0xBF rest
    else if (0xE1 ≤ b && b ≤ 0xEC) || b = 0xEE || b = 0xEF then utf8Aux 2 0x80 0xBF rest
    else if b = 0xED then utf8Aux 2 0x80 0x9F rest
    else if b = 0xF0 then utf8Aux 3 0x90 0xBF rest
    else if 0xF1 ≤ b && b ≤ 0xF3 then utf8Aux 3 0x80 0xBF rest
    else if b = 0xF4 then utf8Aux 3 0x80 0x8F rest
    else false
  | k + 1, lo, hi, b :: rest => (lo ≤ b && b ≤ hi) && utf8Aux k 0x80 0xBF rest

/-- `core::str::from_utf8` succeeds exactly on valid UTF-8. -/
def validUtf8 (l : List Nat) : Bool := utf8Aux 0 0 0 l

/-- The match test of `find_entry`: the entry is used, its stored name
parses as UTF-8 (`from_utf8` guard), and the NUL-trimmed stored name
equals the queried name. -/
def entryMatches (e : FileEntry) (name : List Nat) : Bool :=
  e.used && validUtf8 e.name && (trimTrailingZeros e.name == name)

/-- `SimpleFs::find_entry`: first used slot whose trimmed name matches. -/
def find_entry (fs : SimpleFs) (name : List Nat) : Option Nat :=
  findIdxFrom (fun e => entryMatches e name) fs.entries 0

/-- `SimpleFs::find_free_entry`: first slot with `used == false`. -/
def find_free_entry (fs : SimpleFs) : Option Nat :=
  findIdxFrom (fun e => !e.used) fs.entries 0

/-- The allocation scan of `allocate_blocks`: walk the bitmap from index
`base`, marking free blocks in-use and collecting their indices, until
`need` blocks have been taken (`found` have been taken so far).  Returns
`none` for the Rust panic `out[found] = i` with `found ≥ 16` (the `out`
array has `MAX_BLOCKS_PER_FILE` slots), which is reachable because the
`found == blocks_needed` break never fires when `blocks_needed = 0`. -/
def allocGo : List Bool → Nat → Nat → Nat → Option (List Bool × List Nat)
  | [], _, _, _ => some ([], [])
  | b :: rest, base, need, found =>
    if b then
      (allocGo rest (base + 1) need found).map (fun r => (true :: r.1, r.2))
    else if MAX_BLOCKS_PER_FILE ≤ found then
      none
    else if found + 1 = need then
      some (true :: rest, [base])
    else
      (allocGo rest (base + 1) need (found + 1)).map
        (fun r => (true :: r.1, base :: r.2))

/-- The failure rollback of `allocate_blocks`: `for j in 0..found`
re-clear each provisionally taken index. -/
def rollbackMap (m : List Bool) (out : List Nat) : List Bool :=
  out.foldl (fun acc i => acc.set i false) m

/-- `SimpleFs::allocate_blocks`.  On success the returned list holds the
taken indices in scan order (the first `blocks_needed` slots of the Rust
`out` array; the remaining slots stay `0xFF` and are never read). -/
def allocate_blocks (fs : SimpleFs) (blocks_needed : Nat) :
    Option (SimpleFs × Except FsError (List Nat)) :=
  if MAX_BLOCKS_PER_FILE < blocks_needed then
    some (fs, .error .TooManyBlocks)
  else
    match allocGo fs.block_map 0 blocks_needed 0 with
    | none => none
    | some (m, out) =>
      if out.length < blocks_needed then
        some ({ fs with block_map := rollbackMap m out }, .error .NoSpace)
      else
        some ({ fs with block_map := m }, .ok out)

/-- The loop of `free_blocks`: for the first `n` listed indices, skip
the `0xFF` sentinel, otherwise clear the in-use bit and zero the block's
backing storage.  `none` models the Rust panics `blocks[i]` with
`i ≥ blocks.len()` and `block_map[b]` with `64 ≤ b < 255`. -/
def freeGo : List Bool → List (List Nat) → List Nat → Nat →
    Option (List Bool × List (List Nat))
  | m, d, _, 0 => some (m, d)
  | _, _, [], _ + 1 => none
  | m, d, b :: rest, n + 1 =>
    if b = 255 then freeGo m d rest n
    else if b < BLOCKS then
      freeGo (m.set b false) (d.set b (List.replicate BLOCK_SIZE 0)) rest n
    else none

/-- `SimpleFs::free_blocks`. -/
def free_blocks (fs : SimpleFs) (blocks : List Nat) (blocks_used : Nat) :
    Option SimpleFs :=
  (freeGo fs.block_map fs.data blocks blocks_used).map
    (fun r => { fs with block_map := r.1, data := r.2 })

/-- The stored form of an input name: copied into the zeroed fixed-width
name array (callers guarantee `name.length ≤ FILENAME_LEN`). -/
def padName (name : List Nat) : List Nat :=
  name ++ List.replicate (FILENAME_LEN - name.length) 0

/-- The entry built by `create` and by the new-file branch of `write`:
`FileEntry::default()` with `used = true` and the name copied in. -/
def freshEntry (name : List Nat) : FileEntry :=
  { used := true
    name := padName name
    size := 0
    blocks := List.replicate MAX_BLOCKS_PER_FILE 255
    blocks_used := 0 }

/-- `SimpleFs::create`.  Never touches the block pool. -/
def create (fs : SimpleFs) (name : List Nat) : SimpleFs × Option FsError :=
  if name.length = 0 ∨ FILENAME_LEN < name.length then (fs, some .NameTooLong)
  else if (find_entry fs name).isSome then (fs, some .AlreadyExists)
  else
    match find_free_entry fs with
    | none => (fs, some .NoSpace)
    | some idx =>
      ({ fs with entries := fs.entries.set idx (freshEntry name) }, none)

/-- `SimpleFs::delete`: capture the entry's block list, clear the slot,
then release the blocks. -/
def delete (fs : SimpleFs) (name : List Nat) : Option (SimpleFs × Option FsError) :=
  match find_entry fs name with
  | none => some (fs, some .NotFound)
  | some idx =>
    let e := entryAt fs idx
    let fs1 := { fs with entries := fs.entries.set idx defaultEntry }
    (free_blocks fs1 e.blocks e.blocks_used).map (fun fs2 => (fs2, none))

/-- The reset the existing-file branch of `write` applies to the found
entry before releasing its blocks: size 0, no blocks, `used` and `name`
untouched. -/
def clearedEntry (e : FileEntry) : FileEntry :=
  { e with size := 0, blocks := List.replicate MAX_BLOCKS_PER_FILE 255,
           blocks_used := 0 }

/-- The first phase of `write` (before the size check): if the name
exists, reset its entry to empty and release its old blocks; otherwise
claim a free slot (`Err(NoSpace)` if the table is full) and install a
fresh used entry with the name. -/
def writePhase1 (fs : SimpleFs) (name : List Nat) :
    Option (Except FsError SimpleFs) :=
  match find_entry fs name with
  | some idx =>
    (free_blocks { fs with entries := fs.entries.set idx (clearedEntry (entryAt fs idx)) }
      (entryAt fs idx).blocks (entryAt fs idx).blocks_used).map .ok
  | none =>
    match find_free_entry fs with
    | none => some (.error .NoSpace)
    | some idx =>
      some (.ok { fs with entries := fs.entries.set idx (freshEntry name) })

/-- Bytes `start..end` of the payload for chunk `i` of `write`:
`start = i * BLOCK_SIZE`, `end = min(start + BLOCK_SIZE, data.len())`. -/
def chunkAt (data : List Nat) (i : Nat) : List Nat :=
  (data.drop (i * BLOCK_SIZE)).take BLOCK_SIZE

/-- Net content of a block after `write`'s copy loop body: the block is
zeroed, then the chunk is copied over its first bytes. -/
def blockOf (data : List Nat) (i : Nat) : List Nat :=
  chunkAt data i ++ List.replicate (BLOCK_SIZE - (chunkAt data i).length) 0

/-- The data-array effect of `write`'s copy loop: store chunk `i`,
`i+1`, ... into the listed block indices. -/
def storeChunks (d : List (List Nat)) (data : List Nat) :
    List Nat → Nat → List (List Nat)
  | [], _ => d
  | b :: rest, i => storeChunks (d.set b (blockOf data i)) data rest (i + 1)

/-- The `e.blocks[i] = allocated[i]` updates of `write`'s copy loop:
overwrite positions `i, i+1, ...` of `bs` with the listed values. -/
def setVals (bs : List Nat) : List Nat → Nat → List Nat
  | [], _ => bs
  | v :: rest, i => setVals (bs.set i v) rest (i + 1)

/-- `ceil(len(data) / BLOCK_SIZE)`, written as the code computes it:
`(data.len() + BLOCK_SIZE - 1) / BLOCK_SIZE`. -/
def blocksNeeded (data : List Nat) : Nat :=
  (data.length + BLOCK_SIZE - 1) / BLOCK_SIZE

/-- The commit step of `write`'s copy loop: store the chunks into the
allocated blocks and update the entry's block list, block count and
size. -/
def writeCommit (fs2 : SimpleFs) (data : List Nat) (k : Nat)
    (allocated : List Nat) (idx : Nat) : SimpleFs :=
  let e := entryAt fs2 idx
  let taken := allocated.take k
  { fs2 with
    data := storeChunks fs2.data data taken 0
    entries := fs2.entries.set idx
      { e with blocks := setVals e.blocks taken 0,
               blocks_used := k,
               size := data.length } }

/-- `SimpleFs::write`.  `none` models a panic: either inside
`allocate_blocks` or the `find_entry(name).unwrap()` after allocation. -/
def write (fs : SimpleFs) (name data : List Nat) :
    Option (SimpleFs × Option FsError) :=
  if name.length = 0 ∨ FILENAME_LEN < name.length then
    some (fs, some .NameTooLong)
  else
    match writePhase1 fs name with
    | none => none
    | some (.error e) => some (fs, some e)
    | some (.ok fs1) =>
      if MAX_BLOCKS_PER_FILE < blocksNeeded data then
        some (fs1, some .TooManyBlocks)
      else
        match allocate_blocks fs1 (blocksNeeded data) with
        | none => none
        | some (fs2, .error e) => some (fs2, some e)
        | some (fs2, .ok allocated) =>
          match find_entry fs2 name with
          | none => none
          | some idx =>
            some (writeCommit fs2 data (blocksNeeded data) allocated idx, none)

/-- Overwrite `buf[pos .. pos + src.length)` with `src` (the
`dst[i] = src[i]` copy loop of `read_into`). -/
def overwriteAt (buf : List Nat) (pos : Nat) (src : List Nat) : List Nat :=
  buf.take pos ++ src ++ buf.drop (pos + src.length)

/-- The block-walking loop of `read_into` over the first `count` block
indices.  `none` models the panics `blocks[bi]` past the array and
`data[block_idx]` with an index ≥ `BLOCKS`. -/
def readGo (d : List (List Nat)) :
    List Nat → Nat → List Nat → Nat → Nat → Option (List Nat × Nat)
  | _, 0, buf, written, _ => some (buf, written)
  | blocks, n + 1, buf, written, remaining =>
    if remaining = 0 then some (buf, written)
    else
      match blocks with
      | [] => none
      | b :: rest =>
        if b < BLOCKS then
          let t := min remaining BLOCK_SIZE
          let src := (d.getD b []).take t
          readGo d rest n (overwriteAt buf written src) (written + t) (remaining - t)
        else none

/-- `SimpleFs::read_into`: copy `min(buf.len(), size)` bytes into the
caller's buffer, walking the block list in order; returns the new buffer
contents and the byte count. -/
def read_into (fs : SimpleFs) (name : List Nat) (buf : List Nat) :
    Option (List Nat × Except FsError Nat) :=
  match find_entry fs name with
  | none => some (buf, .error .NotFound)
  | some idx =>
    let e := entryAt fs idx
    let toCopy := min buf.length e.size
    (readGo fs.data e.blocks e.blocks_used buf 0 toCopy).map
      (fun r => (r.1, .ok r.2))

/-- Well-formedness: exactly the lengths the Rust array types
`[FileEntry; 16]`, `[bool; 64]`, `[[u8; 256]; 64]`, `[u8; 16]` fix. -/
def WF (fs : SimpleFs) : Prop :=
  fs.entries.length = MAX_FILES ∧
  fs.block_map.length = BLOCKS ∧
  fs.data.length = BLOCKS ∧
  (∀ e ∈ fs.entries, e.name.length = FILENAME_LEN ∧
    e.blocks.length = MAX_BLOCKS_PER_FILE) ∧
  (∀ r ∈ fs.data, r.length = BLOCK_SIZE)

instance : DecidablePred WF := fun fs => by
  unfold WF; infer_instance

/-- Every entry's block bookkeeping stays inside the pool: at most 16
blocks, and every listed index is the sentinel or a real block index. -/
def InRange (fs : SimpleFs) : Prop :=
  ∀ e ∈ fs.entries, e.blocks_used ≤ MAX_BLOCKS_PER_FILE ∧
    ∀ b ∈ e.blocks, b = 255 ∨ b < BLOCKS

instance : DecidablePred InRange := fun fs => by
  unfold InRange; infer_instance

/-- Block `i` is owned by entry `e`: the entry is used and lists `i`
among its first `blocks_used` block indices. -/
def ownedBy (e : FileEntry) (i : Nat) : Prop :=
  e.used = true ∧ i ∈ e.blocks.take e.blocks_used

instance (e : FileEntry) (i : Nat) : Decidable (ownedBy e i) := by
  unfold ownedBy; infer_instance

/-- The table/pool agreement invariant of the spec: the bitmap marks
exactly the owned blocks, no block is owned by two different used
slots, and unused slots own nothing. -/
def FsInv (fs : SimpleFs) : Prop :=
  (∀ i < BLOCKS, (fs.block_map.getD i true = true ↔
    ∃ j < MAX_FILES, ownedBy (entryAt fs j) i)) ∧
  (∀ j < MAX_FILES, ∀ j' < MAX_FILES,
    ∀ b ∈ (entryAt fs j).blocks.take (entryAt fs j).blocks_used,
      j = j' ∨ (entryAt fs j).used = false ∨ (entryAt fs j').used = false ∨
        b ∉ (entryAt fs j').blocks.take (entryAt fs j').blocks_used) ∧
  (∀ j < MAX_FILES, (entryAt fs j).used = false → (entryAt fs j).blocks_used = 0)

instance : DecidablePred FsInv := fun fs => by
  unfold FsInv; infer_instance

/-- States reachable from the initial store through the public API.
`read_into` and `list_files` take `&self` and cannot mutate, so only
`create`, `delete` and `write` contribute transitions; a call that
panics (`none`) has no post-state. -/
inductive Reachable : SimpleFs → Prop where
  | init : Reachable SimpleFs.new
  | createStep {fs name} : Reachable fs → Reachable (create fs name).1
  | deleteStep {fs fs' name r} : Reachable fs →
      delete fs name = some (fs', r) → Reachable fs'
  | writeStep {fs fs' name data r} : Reachable fs →
      write fs name data = some (fs', r) → Reachable fs'

end CogFs

/-! ## Basic list helpers -/

namespace CogFs

theorem getD_eq (l : List α) (i : Nat) (d : α) : l.getD i d = (l[i]?).getD d := by
  simp [List.getD]

theorem set_getElem?_self {l : List α} {i : Nat} {a : α} (h : l[i]? = some a) :
    l.set i a = l := by
  have hi : i < l.length := by
    by_contra hlt
    rw [List.getElem?_eq_none (by omega)] at h
    exact Option.noConfusion h
  apply List.ext_getElem?
  intro n
  rcases eq_or_ne i n with rfl | hne
  · rw [List.getElem?_set_eq_of_lt _ hi, h]
  · rw [List.getElem?_set_ne hne]

theorem getElem?_mem {l : List α} {i : Nat} {a : α} (h : l[i]? = some a) : a ∈ l := by
  have hi : i < l.length := by
    by_contra hlt
    rw [List.getElem?_eq_none (by omega)] at h
    exact Option.noConfusion h
  rw [List.getElem?_eq_getElem hi] at h
  cases h
  exact List.getElem_mem ..

theorem getD_mem {l : List α} {i : Nat} {d : α} (h : i < l.length) : l.getD i d ∈ l := by
  rw [getD_eq, List.getElem?_eq_getElem h]
  exact List.getElem_mem ..

/-! ## UTF-8 validation lemmas -/

theorem utf8Aux_state0 (lo hi lo' hi' : Nat) (l : List Nat) :
    utf8Aux 0 lo hi l = utf8Aux 0 lo' hi' l := by
  cases l <;> rfl

theorem utf8Aux_append {k lo hi : Nat} {xs ys : List Nat}
    (hx : utf8Aux k lo hi xs = true) (hy : validUtf8 ys = true) :
    utf8Aux k lo hi (xs ++ ys) = true := by
  induction xs generalizing k lo hi with
  | nil =>
    simp only [utf8Aux, beq_iff_eq] at hx
    subst hx
    simpa [utf8Aux_state0 lo hi 0 0] using hy
  | cons b rest ih =>
    match k with
    | 0 =>
      simp only [List.cons_append, utf8Aux] at hx ⊢
      split_ifs at hx ⊢ <;> exact ih hx
    | k + 1 =>
      simp only [List.cons_append, utf8Aux, Bool.and_eq_true] at hx ⊢
      exact ⟨hx.1, ih hx.2⟩

theorem validUtf8_replicate_zero (n : Nat) : validUtf8 (List.replicate n 0) = true := by
  induction n with
  | zero => rfl
  | succ k ih => simpa [validUtf8, List.replicate_succ, utf8Aux] using ih

theorem validUtf8_append_zeros {xs : List Nat} (h : validUtf8 xs = true) (n : Nat) :
    validUtf8 (xs ++ List.replicate n 0) = true :=
  utf8Aux_append h (validUtf8_replicate_zero n)

/-! ## Trailing-zero trimming -/

theorem trimTrailingZeros_nil : trimTrailingZeros [] = [] := rfl

theorem trimTrailingZeros_getLast_ne {l : List Nat} :
    (trimTrailingZeros l).getLast? ≠ some 0 := by
  intro h
  unfold trimTrailingZeros at h
  rw [List.getLast?_reverse] at h
  have := List.head?_dropWhile_not (fun b => b == 0) l.reverse
  rw [h] at this
  simp at this

theorem trimTrailingZeros_append_zeros (l : List Nat) (n : Nat) :
    trimTrailingZeros (l ++ List.replicate n 0) = trimTrailingZeros l := by
  unfold trimTrailingZeros
  rw [List.reverse_append, List.reverse_replicate]
  congr 1
  induction n with
  | zero => rfl
  | succ k _ => simp [List.replicate_succ, List.dropWhile_cons]

theorem trimTrailingZeros_eq_self {l : List Nat} (h : l.getLast? ≠ some 0) :
    trimTrailingZeros l = l := by
  unfold trimTrailingZeros
  rw [← List.head?_reverse] at h
  cases hrev : l.reverse with
  | nil => simpa using congrArg List.reverse hrev
  | cons x xs =>
    rw [hrev] at h
    simp only [List.head?_cons, ne_eq, Option.some.injEq] at h
    rw [List.dropWhile_cons]
    simp only [beq_iff_eq, h, if_false]
    rw [← hrev, List.reverse_reverse]

theorem trim_padName {name : List Nat} (h : name.getLast? ≠ some 0) :
    trimTrailingZeros (padName name) = name := by
  unfold padName
  rw [trimTrailingZeros_append_zeros, trimTrailingZeros_eq_self h]

theorem trim_padName_eq_trim (name : List Nat) :
    trimTrailingZeros (padName name) = trimTrailingZeros name := by
  unfold padName
  rw [trimTrailingZeros_append_zeros]

/-! ## `findIdxFrom` lemmas -/

theorem findIdxFrom_eq_none {p : α → Bool} {l : List α} {i : Nat} :
    findIdxFrom p l i = none ↔ ∀ a ∈ l, p a = false := by
  induction l generalizing i with
  | nil => simp [findIdxFrom]
  | cons x xs ih =>
    simp only [findIdxFrom, List.mem_cons]
    by_cases hx : p x <;> simp [hx, ih]

theorem findIdxFrom_some_le {p : α → Bool} {l : List α} {i j : Nat}
    (h : findIdxFrom p l i = some j) : i ≤ j := by
  induction l generalizing i with
  | nil => exact absurd h (by simp [findIdxFrom])
  | cons x xs ih =>
    unfold findIdxFrom at h
    split at h
    · cases h; omega
    · have := ih h; omega

theorem findIdxFrom_some_hit {p : α → Bool} {l : List α} {i j : Nat}
    (h : findIdxFrom p l i = some j) :
    ∃ a, l[j - i]? = some a ∧ p a = true := by
  induction l generalizing i with
  | nil => exact absurd h (by simp [findIdxFrom])
  | cons x xs ih =>
    unfold findIdxFrom at h
    split at h
    · cases h
      simp only [Nat.sub_self, List.getElem?_cons_zero]
      exact ⟨x, rfl, by assumption⟩
    · have hle := findIdxFrom_some_le h
      obtain ⟨a, ha, hpa⟩ := ih h
      refine ⟨a, ?_, hpa⟩
      have : j - i = (j - (i + 1)) + 1 := by omega
      rw [this, List.getElem?_cons_succ]
      exact ha

theorem findIdxFrom_some_before {p : α → Bool} {l : List α} {i j : Nat}
    (h : findIdxFrom p l i = some j) :
    ∀ k < j - i, ∀ a, l[k]? = some a → p a = false := by
  induction l generalizing i with
  | nil => exact absurd h (by simp [findIdxFrom])
  | cons x xs ih =>
    intro k hk a ha
    unfold findIdxFrom at h
    split at h
    · cases h; omega
    · match k with
      | 0 =>
        simp only [List.getElem?_cons_zero, Option.some.injEq] at ha
        subst ha
        simpa using ‹¬ p x = true›
      | k + 1 =>
        rw [List.getElem?_cons_succ] at ha
        have hle := findIdxFrom_some_le h
        exact ih h k (by omega) a ha

/-- `findIdxFrom` only inspects the predicate's value on each element. -/
theorem findIdxFrom_congr {p : α → Bool} {l l' : List α}
    (h : l.map p = l'.map p) (i : Nat) :
    findIdxFrom p l i = findIdxFrom p l' i := by
  induction l generalizing l' i with
  | nil =>
    have : l' = [] := by
      cases l' with
      | nil => rfl
      | cons y ys => simp at h
    subst this; rfl
  | cons x xs ih =>
    cases l' with
    | nil => simp at h
    | cons y ys =>
      simp only [List.map_cons, List.cons.injEq] at h
      unfold findIdxFrom
      rw [h.1]
      by_cases hy : p y <;> simp [hy, ih h.2]

end CogFs

/-! ## `find_entry` and `find_free_entry` lemmas -/

namespace CogFs

theorem find_entry_eq_none {fs : SimpleFs} {name : List Nat} :
    find_entry fs name = none ↔ ∀ e ∈ fs.entries, entryMatches e name = false :=
  findIdxFrom_eq_none

theorem find_entry_some_hit {fs : SimpleFs} {name : List Nat} {idx : Nat}
    (h : find_entry fs name = some idx) :
    ∃ e, fs.entries[idx]? = some e ∧ entryMatches e name = true := by
  have := findIdxFrom_some_hit h
  simpa using this

theorem find_entry_some_lt {fs : SimpleFs} {name : List Nat} {idx : Nat}
    (h : find_entry fs name = some idx) : idx < fs.entries.length := by
  obtain ⟨e, he, -⟩ := find_entry_some_hit h
  by_contra hlt
  rw [List.getElem?_eq_none (by omega)] at he
  exact Option.noConfusion he

theorem find_entry_some_before {fs : SimpleFs} {name : List Nat} {idx : Nat}
    (h : find_entry fs name = some idx) :
    ∀ k < idx, ∀ e, fs.entries[k]? = some e → entryMatches e name = false := by
  have := findIdxFrom_some_before h
  simpa using this

theorem find_free_entry_some_hit {fs : SimpleFs} {idx : Nat}
    (h : find_free_entry fs = some idx) :
    ∃ e, fs.entries[idx]? = some e ∧ e.used = false := by
  obtain ⟨e, he, hp⟩ := findIdxFrom_some_hit h
  simp only [Nat.sub_zero] at he
  refine ⟨e, he, ?_⟩
  simpa using hp

theorem find_free_entry_some_lt {fs : SimpleFs} {idx : Nat}
    (h : find_free_entry fs = some idx) : idx < fs.entries.length := by
  obtain ⟨e, he, -⟩ := find_free_entry_some_hit h
  by_contra hlt
  rw [List.getElem?_eq_none (by omega)] at he
  exact Option.noConfusion he

/-- Replacing the entry in slot `idx` by one with the same match status
does not change any name lookup. -/
theorem find_entry_set_congr {fs : SimpleFs} {idx : Nat} {e e' : FileEntry}
    (he : fs.entries[idx]? = some e) (name : List Nat)
    (hmatch : entryMatches e' name = entryMatches e name) :
    find_entry { fs with entries := fs.entries.set idx e' } name =
      find_entry fs name := by
  unfold find_entry
  apply findIdxFrom_congr
  rw [List.map_set, hmatch]
  apply set_getElem?_self
  rw [List.getElem?_map, he]
  rfl

/-- A lookup for a name whose final byte is NUL never finds anything:
the stored trimmed name never ends in a NUL byte. -/
theorem find_entry_none_of_last_zero (fs : SimpleFs) {name : List Nat}
    (h : name.getLast? = some 0) : find_entry fs name = none := by
  rw [find_entry_eq_none]
  intro e _
  unfold entryMatches
  cases hu : e.used
  · rfl
  · cases hv : validUtf8 e.name
    · rfl
    · simp only [Bool.true_and]
      rw [beq_eq_false_iff_ne]
      intro htr
      exact trimTrailingZeros_getLast_ne (htr ▸ h)

/-- The entry installed by `create` / the new-file branch of `write`
matches the name it was built from, provided the name (a Rust `&str`,
hence valid UTF-8) does not end in a NUL byte. -/
theorem entryMatches_freshEntry {name : List Nat}
    (hv : validUtf8 name = true) (hz : name.getLast? ≠ some 0) :
    entryMatches (freshEntry name) name = true := by
  unfold entryMatches freshEntry
  simp only [Bool.true_and]
  rw [show (padName name) = name ++ List.replicate (FILENAME_LEN - name.length) 0 from rfl]
  rw [validUtf8_append_zeros hv]
  simp only [Bool.true_and]
  rw [show (name ++ List.replicate (FILENAME_LEN - name.length) 0) = padName name from rfl]
  rw [trim_padName hz]
  simp

/-- If no current entry matches, after installing a matching entry in
slot `idx` the lookup returns exactly `idx`. -/
theorem find_entry_set_of_none {fs : SimpleFs} {name : List Nat} {idx : Nat}
    {e' : FileEntry} (hnone : find_entry fs name = none)
    (hidx : idx < fs.entries.length) (hmatch : entryMatches e' name = true) :
    find_entry { fs with entries := fs.entries.set idx e' } name = some idx := by
  rw [find_entry_eq_none] at hnone
  unfold find_entry
  have key : ∀ (l : List FileEntry) (i k : Nat), k < l.length →
      (∀ a ∈ l, entryMatches a name = false) →
      findIdxFrom (fun e => entryMatches e name) (l.set k e') i = some (i + k) := by
    intro l
    induction l with
    | nil => intro i k hk _; simp at hk
    | cons x xs ih =>
      intro i k hk hall
      match k with
      | 0 =>
        simp only [List.set_cons_zero, findIdxFrom, hmatch, if_true, Nat.add_zero]
      | k + 1 =>
        simp only [List.set_cons_succ, findIdxFrom]
        have hx : entryMatches x name = false := hall x (by simp)
        simp only [hx, Bool.false_eq_true, if_false]
        have := ih (i + 1) k (by simpa using hk)
          (fun a ha => hall a (List.mem_cons_of_mem _ ha))
        rw [this]
        congr 1
        omega
  have := key fs.entries 0 idx hidx hnone
  simpa using this

/-- The same-name lookup after installing an entry that does not match:
nothing is found if nothing was found before. -/
theorem find_entry_set_none_of_none {fs : SimpleFs} {name : List Nat} {idx : Nat}
    {e' : FileEntry} (hnone : find_entry fs name = none)
    (hmatch : entryMatches e' name = false) :
    find_entry { fs with entries := fs.entries.set idx e' } name = none := by
  rw [find_entry_eq_none] at hnone ⊢
  intro a ha
  rcases List.mem_or_eq_of_mem_set ha with h | h
  · exact hnone a h
  · subst h; exact hmatch

end CogFs

/-! ## Allocator lemmas -/

namespace CogFs

/-- The ascending list of free (not in-use) block indices, offset by
`base`; `freeListFrom m 0` is the list of free indices of the bitmap. -/
def freeListFrom : List Bool → Nat → List Nat
  | [], _ => []
  | b :: rest, base =>
    if b then freeListFrom rest (base + 1) else base :: freeListFrom rest (base + 1)

/-- Number of free blocks in a bitmap. -/
def freeCount (fs : SimpleFs) : Nat := fs.block_map.countP (fun b => !b)

theorem freeListFrom_length (m : List Bool) (base : Nat) :
    (freeListFrom m base).length = m.countP (fun b => !b) := by
  induction m generalizing base with
  | nil => rfl
  | cons b rest ih =>
    cases b <;> simp [freeListFrom, List.countP_cons, ih]

theorem freeListFrom_ge {m : List Bool} {base : Nat} :
    ∀ x ∈ freeListFrom m base, base ≤ x := by
  induction m generalizing base with
  | nil => simp [freeListFrom]
  | cons b rest ih =>
    intro x hx
    unfold freeListFrom at hx
    split at hx
    · have := ih x hx; omega
    · rcases List.mem_cons.mp hx with rfl | hx
      · omega
      · have := ih x hx; omega

theorem freeListFrom_lt {m : List Bool} {base : Nat} :
    ∀ x ∈ freeListFrom m base, x < base + m.length := by
  induction m generalizing base with
  | nil => simp [freeListFrom]
  | cons b rest ih =>
    intro x hx
    unfold freeListFrom at hx
    split at hx
    · have := ih x hx; simp only [List.length_cons]; omega
    · rcases List.mem_cons.mp hx with rfl | hx
      · simp
      · have := ih x hx; simp only [List.length_cons]; omega

theorem freeListFrom_pairwise (m : List Bool) (base : Nat) :
    (freeListFrom m base).Pairwise (· < ·) := by
  induction m generalizing base with
  | nil => exact List.Pairwise.nil
  | cons b rest ih =>
    unfold freeListFrom
    split
    · exact ih (base + 1)
    · exact List.Pairwise.cons
        (fun x hx => by have := freeListFrom_ge x hx; omega) (ih (base + 1))

theorem allocGo_length {m m' : List Bool} {base need found : Nat} {out : List Nat}
    (h : allocGo m base need found = some (m', out)) : m'.length = m.length := by
  induction m generalizing base found m' out with
  | nil => unfold allocGo at h; cases h; rfl
  | cons b rest ih =>
    unfold allocGo at h
    split at h
    · rcases hrec : allocGo rest (base + 1) need found with _ | ⟨mm, oo⟩ <;>
        rw [hrec] at h
      · cases h
      · cases h; simpa using ih hrec
    · split at h
      · cases h
      · split at h
        · cases h; simp
        · rcases hrec : allocGo rest (base + 1) need (found + 1) with _ | ⟨mm, oo⟩ <;>
            rw [hrec] at h
          · cases h
          · cases h; simpa using ih hrec

theorem allocGo_count {m m' : List Bool} {base need found : Nat} {out : List Nat}
    (h : allocGo m base need found = some (m', out)) :
    m'.countP (fun b => !b) + out.length = m.countP (fun b => !b) := by
  induction m generalizing base found m' out with
  | nil => unfold allocGo at h; cases h; rfl
  | cons b rest ih =>
    unfold allocGo at h
    split at h
    · rcases hrec : allocGo rest (base + 1) need found with _ | ⟨mm, oo⟩ <;>
        rw [hrec] at h
      · cases h
      · cases h
        have := ih hrec
        simp only [List.countP_cons]
        simp_all
    · split at h
      · cases h
      · split at h
        · cases h
          have hb : b = false := by simp_all
          subst hb
          simp [List.countP_cons, Nat.add_comm]
        · rcases hrec : allocGo rest (base + 1) need (found + 1) with _ | ⟨mm, oo⟩ <;>
            rw [hrec] at h
          · cases h
          · cases h
            have := ih hrec
            simp only [List.countP_cons, List.length_cons]
            simp_all
            omega

theorem allocGo_out_bound {m m' : List Bool} {base need found : Nat} {out : List Nat}
    (h : allocGo m base need found = some (m', out)) :
    ∀ x ∈ out, base ≤ x ∧ x < base + m.length := by
  induction m generalizing base found m' out with
  | nil => unfold allocGo at h; cases h; simp
  | cons b rest ih =>
    unfold allocGo at h
    split at h
    · rcases hrec : allocGo rest (base + 1) need found with _ | ⟨mm, oo⟩ <;>
        rw [hrec] at h
      · cases h
      · cases h
        intro x hx
        have := ih hrec x hx
        simp only [List.length_cons]
        omega
    · split at h
      · cases h
      · split at h
        · cases h
          intro x hx
          simp only [List.mem_singleton] at hx
          subst hx
          simp
        · rcases hrec : allocGo rest (base + 1) need (found + 1) with _ | ⟨mm, oo⟩ <;>
            rw [hrec] at h
          · cases h
          · cases h
            intro x hx
            rcases List.mem_cons.mp hx with rfl | hx
            · simp
            · have := ih hrec x hx
              simp only [List.length_cons]
              omega

theorem rollbackMap_length (out : List Nat) (m : List Bool) :
    (rollbackMap m out).length = m.length := by
  induction out generalizing m with
  | nil => rfl
  | cons x rest ih =>
    unfold rollbackMap at ih ⊢
    simp only [List.foldl_cons]
    rw [ih]
    simp

theorem rollbackMap_getElem? (out : List Nat) (m : List Bool) (p : Nat) :
    (rollbackMap m out)[p]? =
      if p ∈ out ∧ p < m.length then some false else m[p]? := by
  induction out generalizing m with
  | nil => simp [rollbackMap]
  | cons x rest ih =>
    unfold rollbackMap at ih ⊢
    simp only [List.foldl_cons]
    rw [ih]
    by_cases hmem : p ∈ rest
    · simp only [hmem, List.length_set, List.mem_cons, or_true, true_and]
      split
      · rfl
      · rw [@List.getElem?_eq_none _ (m.set x false) p (by simp; omega),
          @List.getElem?_eq_none _ m p (by omega)]
    · simp only [hmem, false_and, if_false, List.length_set, List.mem_cons]
      rcases eq_or_ne p x with rfl | hne
      · by_cases hp : p < m.length
        · simp only [true_or, hp, and_true, if_true]
          exact List.getElem?_set_eq_of_lt false hp
        · simp only [hp, and_false, if_false]
          rw [@List.getElem?_eq_none _ (m.set p false) p (by simpa using hp),
            @List.getElem?_eq_none _ m p (by omega)]
      · simp only [hne, false_or, hmem, false_and, if_false]
        exact List.getElem?_set_ne (fun hh => hne hh.symm)

end CogFs

/-! ## Allocation scan characterization -/

namespace CogFs

theorem freeListFrom_cons_true (rest : List Bool) (base : Nat) :
    freeListFrom (true :: rest) base = freeListFrom rest (base + 1) := rfl

theorem freeListFrom_cons_false (rest : List Bool) (base : Nat) :
    freeListFrom (false :: rest) base = base :: freeListFrom rest (base + 1) := rfl

theorem mem_freeListFrom {m : List Bool} {base x : Nat} :
    x ∈ freeListFrom m base ↔ base ≤ x ∧ m[x - base]? = some false := by
  induction m generalizing base with
  | nil => simp [freeListFrom]
  | cons b rest ih =>
    have hsub : ∀ y : Nat, base + 1 ≤ y → y - base = (y - (base + 1)) + 1 := by
      intro y hy; omega
    cases b with
    | true =>
      rw [freeListFrom_cons_true, ih]
      constructor
      · rintro ⟨h1, h2⟩
        refine ⟨by omega, ?_⟩
        rw [hsub x h1, List.getElem?_cons_succ]
        exact h2
      · rintro ⟨h1, h2⟩
        rcases Nat.eq_or_lt_of_le h1 with rfl | hlt
        · rw [Nat.sub_self, List.getElem?_cons_zero] at h2
          simp at h2
        · refine ⟨by omega, ?_⟩
          rw [hsub x (by omega), List.getElem?_cons_succ] at h2
          exact h2
    | false =>
      rw [freeListFrom_cons_false, List.mem_cons, ih]
      constructor
      · rintro (rfl | ⟨h1, h2⟩)
        · simp
        · refine ⟨by omega, ?_⟩
          rw [hsub x h1, List.getElem?_cons_succ]
          exact h2
      · rintro ⟨h1, h2⟩
        rcases Nat.eq_or_lt_of_le h1 with rfl | hlt
        · exact Or.inl rfl
        · refine Or.inr ⟨by omega, ?_⟩
          rw [hsub x (by omega), List.getElem?_cons_succ] at h2
          exact h2

theorem allocGo_cons (b : Bool) (rest : List Bool) (base need found : Nat) :
    allocGo (b :: rest) base need found =
      if b then (allocGo rest (base + 1) need found).map (fun r => (true :: r.1, r.2))
      else if MAX_BLOCKS_PER_FILE ≤ found then none
      else if found + 1 = need then some (true :: rest, [base])
      else (allocGo rest (base + 1) need (found + 1)).map
        (fun r => (true :: r.1, base :: r.2)) := rfl

theorem allocGo_cons_true (rest : List Bool) (base need found : Nat) :
    allocGo (true :: rest) base need found =
      (allocGo rest (base + 1) need found).map (fun r => (true :: r.1, r.2)) := by
  rw [allocGo_cons]; simp

theorem allocGo_cons_false_break (rest : List Bool) (base need found : Nat)
    (hg : ¬ MAX_BLOCKS_PER_FILE ≤ found) (hl : found + 1 = need) :
    allocGo (false :: rest) base need found = some (true :: rest, [base]) := by
  rw [allocGo_cons]
  simp [hg, hl]

theorem allocGo_cons_false_go (rest : List Bool) (base need found : Nat)
    (hg : ¬ MAX_BLOCKS_PER_FILE ≤ found) (hl : ¬ found + 1 = need) :
    allocGo (false :: rest) base need found =
      (allocGo rest (base + 1) need (found + 1)).map
        (fun r => (true :: r.1, base :: r.2)) := by
  rw [allocGo_cons]
  simp [hg, hl]

/-- The success case of the allocation scan: as long as fewer than
`need` blocks have been taken, the scan returns the next `need - found`
free indices and marks exactly those in-use. -/
theorem allocGo_spec (m : List Bool) (base need found : Nat)
    (hf : found < need) (h16 : need ≤ MAX_BLOCKS_PER_FILE) :
    ∃ m', allocGo m base need found =
        some (m', (freeListFrom m base).take (need - found)) ∧
      m'.length = m.length ∧
      (∀ p : Nat, m'[p]? =
        if base + p ∈ (freeListFrom m base).take (need - found) then some true
        else m[p]?) := by
  induction m generalizing base found with
  | nil =>
    refine ⟨[], by simp [allocGo, freeListFrom], rfl, ?_⟩
    intro p
    simp [freeListFrom]
  | cons b rest ih =>
    cases b with
    | true =>
      obtain ⟨m'', hrun, hlen, hpt⟩ := ih (base + 1) found hf
      refine ⟨true :: m'', ?_, by simpa using hlen, ?_⟩
      · rw [allocGo_cons_true, hrun, freeListFrom_cons_true]
        rfl
      · intro p
        rw [freeListFrom_cons_true]
        match p with
        | 0 =>
          have hni : ¬(base + 0 ∈ (freeListFrom rest (base + 1)).take (need - found)) := by
            intro hmem
            have := freeListFrom_ge _ (List.mem_of_mem_take hmem)
            omega
          simp [hni]
        | p + 1 =>
          have harith : base + (p + 1) = (base + 1) + p := by omega
          simp only [List.getElem?_cons_succ, harith, hpt p]
    | false =>
      have hguard : ¬(MAX_BLOCKS_PER_FILE ≤ found) := by
        unfold MAX_BLOCKS_PER_FILE at h16 ⊢; omega
      by_cases hlast : found + 1 = need
      · have hneed : need - found = 1 := by omega
        rw [freeListFrom_cons_false, hneed, List.take_succ_cons, List.take_zero]
        refine ⟨true :: rest, ?_, by simp, ?_⟩
        · rw [allocGo_cons_false_break rest base need found hguard hlast]
        · intro p
          match p with
          | 0 => simp
          | p + 1 =>
            have hni : ¬(base + (p + 1) ∈ ([base] : List Nat)) := by
              simp only [List.mem_singleton]; omega
            simp only [hni, if_false, List.getElem?_cons_succ]
      · obtain ⟨m'', hrun, hlen, hpt⟩ := ih (base + 1) (found + 1) (by omega)
        have harith : need - found = (need - (found + 1)) + 1 := by omega
        rw [freeListFrom_cons_false, harith, List.take_succ_cons]
        refine ⟨true :: m'', ?_, by simpa using hlen, ?_⟩
        · rw [allocGo_cons_false_go rest base need found hguard hlast, hrun]
          rfl
        · intro p
          match p with
          | 0 => simp
          | p + 1 =>
            have harith2 : base + (p + 1) = base + 1 + p := by omega
            have hne : ¬(base + 1 + p = base) := by omega
            simp only [List.mem_cons, harith2, hne, false_or,
              List.getElem?_cons_succ, hpt p]

end CogFs

/-! ## Freeing lemmas -/

namespace CogFs

theorem SimpleFs.eq_of_fields {a b : SimpleFs} (h1 : a.entries = b.entries)
    (h2 : a.block_map = b.block_map) (h3 : a.data = b.data) : a = b := by
  cases a; cases b; cases h1; cases h2; cases h3; rfl

/-- The indices actually released by `free_blocks(blocks, n)`: the first
`n` listed indices with the `0xFF` sentinel skipped. -/
def freedSet (blocks : List Nat) (n : Nat) : List Nat :=
  (blocks.take n).filter (fun b => b != 255)

theorem mem_freedSet {blocks : List Nat} {n p : Nat} :
    p ∈ freedSet blocks n ↔ p ∈ blocks.take n ∧ p ≠ 255 := by
  unfold freedSet
  rw [List.mem_filter]
  simp

theorem freeGo_zero (m : List Bool) (d : List (List Nat)) (blocks : List Nat) :
    freeGo m d blocks 0 = some (m, d) := by
  cases blocks <;> rfl

theorem freeGo_cons (m : List Bool) (d : List (List Nat)) (b : Nat)
    (rest : List Nat) (n : Nat) :
    freeGo m d (b :: rest) (n + 1) =
      if b = 255 then freeGo m d rest n
      else if b < BLOCKS then
        freeGo (m.set b false) (d.set b (List.replicate BLOCK_SIZE 0)) rest n
      else none := rfl

theorem freeGo_spec (blocks : List Nat) (n : Nat) (m : List Bool)
    (d : List (List Nat)) (hn : n ≤ blocks.length)
    (hr : ∀ b ∈ blocks.take n, b = 255 ∨ b < BLOCKS)
    (hm : m.length = BLOCKS) (hd : d.length = BLOCKS) :
    ∃ m' d', freeGo m d blocks n = some (m', d') ∧
      m'.length = m.length ∧ d'.length = d.length ∧
      (∀ p : Nat, m'[p]? =
        if p ∈ freedSet blocks n then some false else m[p]?) ∧
      (∀ p : Nat, d'[p]? =
        if p ∈ freedSet blocks n then some (List.replicate BLOCK_SIZE 0)
        else d[p]?) := by
  induction n generalizing blocks m d with
  | zero =>
    refine ⟨m, d, freeGo_zero m d blocks, rfl, rfl, ?_, ?_⟩ <;>
      intro p <;> simp [freedSet]
  | succ k ih =>
    match blocks with
    | [] => simp at hn
    | b :: rest =>
      have hrtail : ∀ x ∈ rest.take k, x = 255 ∨ x < BLOCKS := fun x hx =>
        hr x (by rw [List.take_succ_cons]; exact List.mem_cons_of_mem _ hx)
      rcases eq_or_ne b 255 with rfl | hne
      · have hfreed : freedSet (255 :: rest) (k + 1) = freedSet rest k := by
          unfold freedSet
          rw [List.take_succ_cons, List.filter_cons]
          simp
        have hrun : freeGo m d (255 :: rest) (k + 1) = freeGo m d rest k := by
          rw [freeGo_cons]; simp
        obtain ⟨m', d', hgo, hlm, hld, hpm, hpd⟩ :=
          ih rest m d (by simpa using hn) hrtail hm hd
        exact ⟨m', d', by rw [hrun]; exact hgo, hlm, hld,
          fun p => by rw [hfreed]; exact hpm p,
          fun p => by rw [hfreed]; exact hpd p⟩
      · have hblt : b < BLOCKS := by
          rcases hr b (by simp) with h | h
          · exact absurd h hne
          · exact h
        have hfreed : freedSet (b :: rest) (k + 1) = b :: freedSet rest k := by
          unfold freedSet
          rw [List.take_succ_cons, List.filter_cons]
          simp [hne]
        have hrun : freeGo m d (b :: rest) (k + 1) =
            freeGo (m.set b false) (d.set b (List.replicate BLOCK_SIZE 0)) rest k := by
          rw [freeGo_cons]
          simp [hne, hblt]
        obtain ⟨m', d', hgo, hlm, hld, hpm, hpd⟩ :=
          ih rest (m.set b false) (d.set b (List.replicate BLOCK_SIZE 0))
            (by simpa using hn) hrtail (by simpa using hm) (by simpa using hd)
        refine ⟨m', d', by rw [hrun]; exact hgo, by simpa using hlm,
          by simpa using hld, ?_, ?_⟩
        · intro p
          rw [hfreed, hpm p]
          by_cases hpf : p ∈ freedSet rest k
          · simp [hpf, List.mem_cons]
          · rcases eq_or_ne p b with rfl | hpb
            · simp only [hpf, if_false, List.mem_cons, true_or, if_true]
              exact List.getElem?_set_eq_of_lt false (by omega)
            · simp only [hpf, if_false, List.mem_cons, hpb, or_false, if_false]
              exact List.getElem?_set_ne (fun hh => hpb hh.symm)
        · intro p
          rw [hfreed, hpd p]
          by_cases hpf : p ∈ freedSet rest k
          · simp [hpf, List.mem_cons]
          · rcases eq_or_ne p b with rfl | hpb
            · simp only [hpf, if_false, List.mem_cons, true_or, if_true]
              exact List.getElem?_set_eq_of_lt _ (by omega)
            · simp only [hpf, if_false, List.mem_cons, hpb, or_false, if_false]
              exact List.getElem?_set_ne (fun hh => hpb hh.symm)

/-- `free_blocks` never touches the file table, and on in-range inputs
it succeeds, clears exactly the listed bits and zeroes exactly the
listed blocks. -/
theorem free_blocks_spec (fs : SimpleFs) (blocks : List Nat) (n : Nat)
    (hn : n ≤ blocks.length)
    (hr : ∀ b ∈ blocks.take n, b = 255 ∨ b < BLOCKS)
    (hm : fs.block_map.length = BLOCKS) (hd : fs.data.length = BLOCKS) :
    ∃ fs', free_blocks fs blocks n = some fs' ∧
      fs'.entries = fs.entries ∧
      fs'.block_map.length = fs.block_map.length ∧
      fs'.data.length = fs.data.length ∧
      (∀ p : Nat, fs'.block_map[p]? =
        if p ∈ freedSet blocks n then some false else fs.block_map[p]?) ∧
      (∀ p : Nat, fs'.data[p]? =
        if p ∈ freedSet blocks n then some (List.replicate BLOCK_SIZE 0)
        else fs.data[p]?) := by
  obtain ⟨m', d', hgo, hlm, hld, hpm, hpd⟩ :=
    freeGo_spec blocks n fs.block_map fs.data hn hr hm hd
  refine ⟨{ fs with block_map := m', data := d' }, ?_, rfl, hlm, hld, hpm, hpd⟩
  unfold free_blocks
  rw [hgo]
  rfl

end CogFs

/-! ## Claim C8: free_blocks semantics and idempotence -/

namespace CogFs

theorem free_blocks_entries {fs fs' : SimpleFs} {blocks : List Nat} {n : Nat}
    (h : free_blocks fs blocks n = some fs') : fs'.entries = fs.entries := by
  unfold free_blocks at h
  rcases hgo : freeGo fs.block_map fs.data blocks n with _ | ⟨m', d'⟩ <;>
    rw [hgo] at h
  · cases h
  · cases h; rfl

/-- Claim C8: `free_blocks(blocks, n)` marks each of the first `n`
listed indices (those not equal to the `0xFF` sentinel) as not-in-use
and zeroes that block's entire `BLOCK_SIZE` backing storage, touches
nothing else (in particular freeing an already-free index is a no-op),
and applying it twice with the same arguments yields the same state as
applying it once.  The hypotheses are exactly the conditions under
which the Rust call does not panic: `n` within the passed slice and
every listed index the sentinel or a real block index — true at every
call site on reachable states. -/
theorem c8_free_blocks_spec (fs : SimpleFs) (blocks : List Nat) (n : Nat)
    (hWF : WF fs) (hn : n ≤ blocks.length)
    (hr : ∀ b ∈ blocks.take n, b = 255 ∨ b < BLOCKS) :
    ∃ fs', free_blocks fs blocks n = some fs' ∧
      fs'.entries = fs.entries ∧
      (∀ b ∈ blocks.take n, b ≠ 255 →
        fs'.block_map[b]? = some false ∧
        fs'.data[b]? = some (List.replicate BLOCK_SIZE 0)) ∧
      (∀ p : Nat, p ∉ freedSet blocks n →
        fs'.block_map[p]? = fs.block_map[p]? ∧ fs'.data[p]? = fs.data[p]?) ∧
      free_blocks fs' blocks n = some fs' := by
  obtain ⟨-, hm, hd, -, -⟩ := hWF
  obtain ⟨fs', hrun, hent, hlm, hld, hpm, hpd⟩ :=
    free_blocks_spec fs blocks n hn hr hm hd
  obtain ⟨fs'', hrun2, hent2, hlm2, hld2, hpm2, hpd2⟩ :=
    free_blocks_spec fs' blocks n hn hr (hlm.trans hm) (hld.trans hd)
  have heq : fs'' = fs' := by
    apply SimpleFs.eq_of_fields hent2
    · apply List.ext_getElem?
      intro p
      rw [hpm2 p]
      split
      · rw [hpm p, if_pos (by assumption)]
      · rfl
    · apply List.ext_getElem?
      intro p
      rw [hpd2 p]
      split
      · rw [hpd p, if_pos (by assumption)]
      · rfl
  refine ⟨fs', hrun, hent, ?_, ?_, heq ▸ hrun2⟩
  · intro b hb hb255
    have hmem : b ∈ freedSet blocks n := mem_freedSet.mpr ⟨hb, hb255⟩
    exact ⟨by rw [hpm b, if_pos hmem], by rw [hpd b, if_pos hmem]⟩
  · intro p hp
    exact ⟨by rw [hpm p, if_neg hp], by rw [hpd p, if_neg hp]⟩

set_option maxRecDepth 4096 in
/-- Witness for C8 at a concrete input: free the first two listed
indices (block 0, already free, and the sentinel is not in the first
two) on the fresh store. -/
theorem c8_witness :
    WF SimpleFs.new ∧
    (∃ fs', free_blocks SimpleFs.new [0, 255, 3] 2 = some fs' ∧
      fs'.entries = SimpleFs.new.entries ∧
      (∀ b ∈ ([0, 255, 3] : List Nat).take 2, b ≠ 255 →
        fs'.block_map[b]? = some false ∧
        fs'.data[b]? = some (List.replicate BLOCK_SIZE 0)) ∧
      (∀ p : Nat, p ∉ freedSet [0, 255, 3] 2 →
        fs'.block_map[p]? = SimpleFs.new.block_map[p]? ∧
        fs'.data[p]? = SimpleFs.new.data[p]?) ∧
      free_blocks fs' [0, 255, 3] 2 = some fs') :=
  ⟨by decide,
    c8_free_blocks_spec SimpleFs.new [0, 255, 3] 2 (by decide) (by decide) (by decide)⟩

end CogFs

/-! ## Claim C4: allocate_blocks -/

namespace CogFs

/-- Amended claim C4: for every `n` with `1 ≤ n ≤ MAX_BLOCKS_PER_FILE`
(the original claim's `n = 0` case is refuted by
`c4_counterexample`): if at least `n` blocks are free,
`allocate_blocks(n)` marks in-use exactly the `n` smallest-index free
blocks and returns them in ascending index order; if fewer than `n`
blocks are free it fails with `NoSpace` and leaves the store — in
particular the in-use bitmap — exactly unchanged. -/
theorem allocate_blocks_eq (fs : SimpleFs) (n : Nat)
    (h : ¬ MAX_BLOCKS_PER_FILE < n) {m : List Bool} {out : List Nat}
    (hgo : allocGo fs.block_map 0 n 0 = some (m, out)) :
    allocate_blocks fs n =
      if out.length < n then
        some ({ fs with block_map := rollbackMap m out }, .error .NoSpace)
      else some ({ fs with block_map := m }, .ok out) := by
  unfold allocate_blocks
  rw [if_neg h, hgo]

theorem c4_allocate_blocks_spec (fs : SimpleFs) (n : Nat)
    (hn1 : 1 ≤ n) (hn16 : n ≤ MAX_BLOCKS_PER_FILE) :
    (n ≤ freeCount fs →
      ∃ m', allocate_blocks fs n =
          some ({ fs with block_map := m' },
            .ok ((freeListFrom fs.block_map 0).take n)) ∧
        ((freeListFrom fs.block_map 0).take n).length = n ∧
        ((freeListFrom fs.block_map 0).take n).Pairwise (· < ·) ∧
        (∀ x ∈ (freeListFrom fs.block_map 0).take n,
          fs.block_map[x]? = some false) ∧
        (∀ p : Nat, m'[p]? =
          if p ∈ (freeListFrom fs.block_map 0).take n then some true
          else fs.block_map[p]?)) ∧
    (freeCount fs < n →
      allocate_blocks fs n = some (fs, .error .NoSpace)) := by
  obtain ⟨m', hrun, hlen, hpt⟩ :=
    allocGo_spec fs.block_map 0 n 0 (by omega) hn16
  rw [Nat.sub_zero] at hrun hpt
  have hflen : (freeListFrom fs.block_map 0).length = freeCount fs :=
    freeListFrom_length fs.block_map 0
  have hnot : ¬ (MAX_BLOCKS_PER_FILE < n) := by omega
  constructor
  · intro hle
    have htk : ((freeListFrom fs.block_map 0).take n).length = n := by
      rw [List.length_take]
      omega
    refine ⟨m', ?_, htk, ?_, ?_, fun p => by rw [hpt p, Nat.zero_add]⟩
    · rw [allocate_blocks_eq fs n hnot hrun, if_neg (by omega)]
    · exact (freeListFrom_pairwise fs.block_map 0).sublist (List.take_sublist ..)
    · intro x hx
      have := mem_freeListFrom.mp (List.mem_of_mem_take hx)
      simpa using this.2
  · intro hlt
    have htk : (freeListFrom fs.block_map 0).take n = freeListFrom fs.block_map 0 :=
      List.take_of_length_le (by omega)
    have hout : ((freeListFrom fs.block_map 0).take n).length < n := by
      rw [htk]; omega
    have hroll : rollbackMap m' ((freeListFrom fs.block_map 0).take n) =
        fs.block_map := by
      apply List.ext_getElem?
      intro p
      rw [rollbackMap_getElem?]
      by_cases hp : p ∈ (freeListFrom fs.block_map 0).take n
      · have hmem := mem_freeListFrom.mp (List.mem_of_mem_take hp)
        have hplt : p < fs.block_map.length := by
          have := freeListFrom_lt p (List.mem_of_mem_take hp)
          omega
        rw [if_pos ⟨hp, by rw [hlen]; omega⟩]
        simpa using hmem.2.symm
      · rw [if_neg (by tauto), hpt p, Nat.zero_add, if_neg hp]
    rw [allocate_blocks_eq fs n hnot hrun, if_pos hout, hroll]

/-- Counterexample to claim C4 as stated: it quantifies over every
`n ≤ MAX_BLOCKS_PER_FILE` including `n = 0`, and the fresh store has
`64 ≥ n` free blocks, so the claim asserts `allocate_blocks(0)` marks
in-use exactly zero blocks and returns an empty allocation.  Instead
the code panics (models as `none`): with `blocks_needed = 0` the
`found == blocks_needed` break never fires, so the scan keeps taking
every free block until the write `out[found]` with `found = 16`
overruns the 16-slot output array. -/
theorem c4_counterexample :
    freeCount SimpleFs.new = 64 ∧ allocate_blocks SimpleFs.new 0 = none :=
  ⟨by decide, rfl⟩

/-- Witness for C4 at a concrete input: allocating 2 blocks from the
fresh store takes the two smallest free indices. -/
theorem c4_witness :
    1 ≤ 2 ∧ 2 ≤ MAX_BLOCKS_PER_FILE ∧ 2 ≤ freeCount SimpleFs.new ∧
    (∃ m', allocate_blocks SimpleFs.new 2 =
        some ({ SimpleFs.new with block_map := m' },
          .ok ((freeListFrom SimpleFs.new.block_map 0).take 2)) ∧
      ((freeListFrom SimpleFs.new.block_map 0).take 2).length = 2 ∧
      ((freeListFrom SimpleFs.new.block_map 0).take 2).Pairwise (· < ·) ∧
      (∀ x ∈ (freeListFrom SimpleFs.new.block_map 0).take 2,
        SimpleFs.new.block_map[x]? = some false) ∧
      (∀ p : Nat, m'[p]? =
        if p ∈ (freeListFrom SimpleFs.new.block_map 0).take 2 then some true
        else SimpleFs.new.block_map[p]?)) :=
  ⟨by decide, by decide, by decide,
    (c4_allocate_blocks_spec SimpleFs.new 2 (by decide) (by decide)).1 (by decide)⟩

end CogFs

/-! ## Claim C5: create -/

namespace CogFs

/-- Claim C5: `create(name)` fails `NameTooLong` iff the name is empty
or longer than `FILENAME_LEN`; otherwise fails `AlreadyExists` iff a
used entry with that (trim-compared) name exists (`find_entry` is
exactly that lookup); otherwise fails `NoSpace` iff no file-table slot
is free; otherwise succeeds installing a used entry with size 0 and no
blocks.  In every case the block pool — bitmap and block data — is
left completely unchanged. -/
theorem c5_create_spec (fs : SimpleFs) (name : List Nat) :
    ((create fs name).1.block_map = fs.block_map ∧
      (create fs name).1.data = fs.data) ∧
    ((create fs name).2 = some .NameTooLong ↔
      name.length = 0 ∨ FILENAME_LEN < name.length) ∧
    ((create fs name).2 = some .AlreadyExists ↔
      ¬(name.length = 0 ∨ FILENAME_LEN < name.length) ∧
      find_entry fs name ≠ none) ∧
    ((create fs name).2 = some .NoSpace ↔
      ¬(name.length = 0 ∨ FILENAME_LEN < name.length) ∧
      find_entry fs name = none ∧ find_free_entry fs = none) ∧
    ((create fs name).2 = none ↔
      ¬(name.length = 0 ∨ FILENAME_LEN < name.length) ∧
      find_entry fs name = none ∧ find_free_entry fs ≠ none) ∧
    ((create fs name).2 = none →
      ∃ idx, find_free_entry fs = some idx ∧
        (create fs name).1.entries = fs.entries.set idx (freshEntry name) ∧
        (freshEntry name).used = true ∧ (freshEntry name).size = 0 ∧
        (freshEntry name).blocks_used = 0) := by
  unfold create
  by_cases hlen : name.length = 0 ∨ FILENAME_LEN < name.length
  · rw [if_pos hlen]
    exact ⟨⟨rfl, rfl⟩, iff_of_true rfl hlen,
      iff_of_false (by simp) (fun h => h.1 hlen),
      iff_of_false (by simp) (fun h => h.1 hlen),
      iff_of_false (by simp) (fun h => h.1 hlen),
      fun h => absurd h (by simp)⟩
  · rw [if_neg hlen]
    rcases hfe : find_entry fs name with _ | i
    · simp only [hfe, Option.isSome_none, Bool.false_eq_true, if_false]
      rcases hff : find_free_entry fs with _ | idx <;> simp only [hff]
      · exact ⟨⟨by trivial, by trivial⟩, iff_of_false (by simp) hlen,
          iff_of_false (by simp) (fun h => h.2 (by trivial)),
          iff_of_true (by trivial) ⟨hlen, by trivial, by trivial⟩,
          iff_of_false (by simp) (fun h => h.2.2 (by trivial)),
          fun h => absurd h (by simp)⟩
      · exact ⟨⟨by trivial, by trivial⟩, iff_of_false (by simp) hlen,
          iff_of_false (by simp) (fun h => h.2 (by trivial)),
          iff_of_false (by simp) (fun h => Option.noConfusion h.2.2),
          iff_of_true (by trivial) ⟨hlen, by trivial, fun h => Option.noConfusion h⟩,
          fun _ => ⟨idx, by trivial, by trivial, rfl, rfl, rfl⟩⟩
    · simp only [hfe, Option.isSome_some, if_true]
      exact ⟨⟨by trivial, by trivial⟩, iff_of_false (by simp) hlen,
        iff_of_true (by trivial) ⟨hlen, fun h => Option.noConfusion h⟩,
        iff_of_false (by simp) (fun h => Option.noConfusion h.2.1),
        iff_of_false (by simp) (fun h => Option.noConfusion h.2.1),
        fun h => absurd h (by simp)⟩

set_option maxRecDepth 4096 in
/-- Witness for C5 at a concrete input: creating `"a"` on the fresh
store succeeds and installs the fresh entry in slot 0. -/
theorem c5_witness :
    (create SimpleFs.new [97]).2 = none ∧
    ∃ idx, find_free_entry SimpleFs.new = some idx ∧
      (create SimpleFs.new [97]).1.entries =
        SimpleFs.new.entries.set idx (freshEntry [97]) ∧
      (freshEntry [97]).used = true ∧ (freshEntry [97]).size = 0 ∧
      (freshEntry [97]).blocks_used = 0 :=
  ⟨by decide, (c5_create_spec SimpleFs.new [97]).2.2.2.2.2 (by decide)⟩

end CogFs

/-! ## Claim C9: names ending in NUL -/

namespace CogFs

/-- Amended claim C9: for every name of length 1..`FILENAME_LEN` whose
final byte is NUL, `create(name)` succeeds *provided a file-table slot
is free* (`c9_counterexample` refutes the unconditional "succeeds": a
full table still fails `NoSpace`), yet `read_into` and `delete` with
the identical name always fail `NotFound`: lookup trims all trailing
NULs of the stored name before comparing, and a trimmed name never ends
in NUL, so the file is reachable only under the NUL-trimmed name. -/
theorem c9_trailing_nul_unreachable (fs : SimpleFs) (name : List Nat) (i : Nat)
    (h1 : 1 ≤ name.length) (h2 : name.length ≤ FILENAME_LEN)
    (hz : name.getLast? = some 0)
    (hfree : find_free_entry fs = some i) :
    ∃ fs', create fs name = (fs', none) ∧
      (∀ buf, read_into fs' name buf = some (buf, .error .NotFound)) ∧
      delete fs' name = some (fs', some .NotFound) := by
  have hlen : ¬(name.length = 0 ∨ FILENAME_LEN < name.length) := by
    push_neg
    omega
  have hfe : find_entry fs name = none := find_entry_none_of_last_zero fs hz
  refine ⟨{ fs with entries := fs.entries.set i (freshEntry name) }, ?_, ?_, ?_⟩
  · unfold create
    rw [if_neg hlen, hfe]
    simp only [Option.isSome_none, Bool.false_eq_true, if_false, hfree]
  · intro buf
    unfold read_into
    rw [find_entry_none_of_last_zero _ hz]
  · unfold delete
    rw [find_entry_none_of_last_zero _ hz]

/-- A used entry with a given first name byte and no blocks (used to
build a full file table; reachable by sixteen `create` calls). -/
def usedEntry (c : Nat) : FileEntry :=
  { used := true
    name := c :: List.replicate 15 0
    size := 0
    blocks := List.replicate MAX_BLOCKS_PER_FILE 255
    blocks_used := 0 }

/-- A store whose sixteen file-table slots are all used (names "A".."P"
with no blocks) — exactly the state reached from the fresh store by the
sixteen calls `create("A")`, ..., `create("P")`. -/
def fsFull : SimpleFs :=
  { entries := (List.range MAX_FILES).map (fun j => usedEntry (65 + j))
    block_map := List.replicate BLOCKS false
    data := List.replicate BLOCKS (List.replicate BLOCK_SIZE 0) }

set_option maxRecDepth 4096 in
/-- Counterexample to claim C9 as stated: on `fsFull` — a store not
containing the name `"a\0"` (`[97, 0]`, length 2, final byte NUL) —
`create` does not succeed; it fails `NoSpace` because no slot is free.
The claim's "create(name) on a store not containing that name
succeeds" is therefore too strong; the free-slot proviso of the
amended claim is necessary. -/
theorem c9_counterexample :
    create fsFull [97, 0] = (fsFull, some FsError.NoSpace) := by decide

set_option maxRecDepth 4096 in
/-- Witness for C9 at a concrete input: `create "a\0"` on the fresh
store succeeds, and lookups with the same name fail `NotFound`. -/
theorem c9_witness :
    (1 ≤ ([97, 0] : List Nat).length ∧ ([97, 0] : List Nat).length ≤ FILENAME_LEN ∧
      ([97, 0] : List Nat).getLast? = some 0 ∧
      find_free_entry SimpleFs.new = some 0) ∧
    ∃ fs', create SimpleFs.new [97, 0] = (fs', none) ∧
      (∀ buf, read_into fs' [97, 0] buf = some (buf, .error .NotFound)) ∧
      delete fs' [97, 0] = some (fs', some .NotFound) :=
  ⟨⟨by decide, by decide, by decide, by decide⟩,
    c9_trailing_nul_unreachable SimpleFs.new [97, 0] 0 (by decide) (by decide)
      (by decide) (by decide)⟩

end CogFs

/-! ## Claim C6: delete followed by lookups -/

namespace CogFs

theorem entryMatches_defaultEntry (name : List Nat) :
    entryMatches defaultEntry name = false := rfl

/-- Inversion of a successful `delete`: some slot matched, and the file
table afterwards is the old table with that slot cleared. -/
theorem delete_ok_inv {fs fs' : SimpleFs} {name : List Nat}
    (h : delete fs name = some (fs', none)) :
    ∃ idx, find_entry fs name = some idx ∧
      fs'.entries = fs.entries.set idx defaultEntry := by
  unfold delete at h
  rcases hfe : find_entry fs name with _ | idx <;> rw [hfe] at h
  · simp at h
  · rcases hfb : free_blocks { fs with entries := fs.entries.set idx defaultEntry }
        (entryAt fs idx).blocks (entryAt fs idx).blocks_used with _ | fs2 <;>
      simp only [hfb, Option.map_none', Option.map_some'] at h
    · cases h
    · have h2 : fs2 = fs' := by
        have := h
        simp only [Option.some.injEq, Prod.mk.injEq] at this
        exact this.1
      subst h2
      exact ⟨idx, rfl, free_blocks_entries hfb⟩

/-- Amended claim C6: after a successful `delete(name)`, *provided at
most one used entry trim-matches `name` in the pre-state* (true in
ordinary stores; `c6_counterexample` shows two entries can share a
trimmed name via `create` with trailing-NUL names, refuting the
unconditional claim), both `read_into(name, buf)` (for any `buf`) and a
second `delete(name)` fail with `NotFound`. -/
theorem c6_delete_then_not_found (fs fs' : SimpleFs) (name : List Nat)
    (hdel : delete fs name = some (fs', none))
    (huniq : ∀ i < fs.entries.length, ∀ j < fs.entries.length,
      entryMatches (entryAt fs i) name = true →
      entryMatches (entryAt fs j) name = true → i = j) :
    find_entry fs' name = none ∧
    (∀ buf, read_into fs' name buf = some (buf, .error .NotFound)) ∧
    delete fs' name = some (fs', some .NotFound) := by
  obtain ⟨idx, hfe, hent⟩ := delete_ok_inv hdel
  have hidx : idx < fs.entries.length := find_entry_some_lt hfe
  obtain ⟨e, he, hme⟩ := find_entry_some_hit hfe
  have hnone : find_entry fs' name = none := by
    rw [find_entry_eq_none]
    intro a ha
    obtain ⟨k, hk⟩ := List.mem_iff_getElem?.mp ha
    rw [hent] at hk
    rcases eq_or_ne k idx with rfl | hne
    · rw [List.getElem?_set_eq_of_lt _ hidx] at hk
      cases hk
      exact entryMatches_defaultEntry name
    · rw [List.getElem?_set_ne (fun hh => hne hh.symm)] at hk
      by_contra hmatch
      rw [Bool.not_eq_false] at hmatch
      have hklt : k < fs.entries.length := by
        by_contra hkge
        rw [List.getElem?_eq_none (by omega)] at hk
        exact Option.noConfusion hk
      have hka : entryAt fs k = a := by rw [entryAt, getD_eq, hk]; rfl
      have hie : entryAt fs idx = e := by rw [entryAt, getD_eq, he]; rfl
      exact hne (huniq k hklt idx hidx (hka ▸ hmatch) (hie ▸ hme))
  refine ⟨hnone, ?_, ?_⟩
  · intro buf
    unfold read_into
    rw [hnone]
  · unfold delete
    rw [hnone]

/-- The store obtained by `create("a\0")` twice from the fresh store:
two distinct used entries both have trimmed name `"a"`. -/
def fsDupA : SimpleFs := (create (create SimpleFs.new [97, 0]).1 [97, 0]).1

/-- The store after `create("a")` then a successful `delete("a")` on
the fresh store (the post-delete state used by the C6 witness). -/
def c6wFs : SimpleFs :=
  ((delete (create SimpleFs.new [97]).1 [97]).getD (SimpleFs.new, none)).1

set_option maxRecDepth 4096 in
/-- Counterexample to claim C6 as stated: on the reachable store
`fsDupA`, `delete("a")` succeeds (clearing the first matching slot),
yet an immediately following `read_into("a", [])` still succeeds with
`Ok(0)` — the second slot with the same trimmed name is still found —
instead of failing `NotFound`. -/
theorem c6_counterexample :
    (delete fsDupA [97]).map (fun r => r.2) = some none ∧
    ((delete fsDupA [97]).bind
      (fun r => (read_into r.1 [97] []).map (fun s => s.2))) =
        some (.ok 0) := by
  constructor <;> decide

set_option maxRecDepth 4096 in
/-- Witness for C6 at a concrete input: create `"a"`, delete it; both
follow-up lookups fail `NotFound`. -/
theorem c6_witness :
    find_entry c6wFs [97] = none ∧
    read_into c6wFs [97] [] = some ([], .error .NotFound) ∧
    delete c6wFs [97] = some (c6wFs, some .NotFound) := by
  have h := c6_delete_then_not_found (create SimpleFs.new [97]).1 c6wFs [97]
    (by decide) (by decide)
  exact ⟨h.1, h.2.1 [], h.2.2⟩

end CogFs

/-! ## Copy-loop lemmas -/

namespace CogFs

theorem overwriteAt_length {buf src : List Nat} {pos : Nat}
    (h : pos + src.length ≤ buf.length) :
    (overwriteAt buf pos src).length = buf.length := by
  unfold overwriteAt
  simp only [List.length_append, List.length_take, List.length_drop]
  omega

theorem storeChunks_length (d : List (List Nat)) (data : List Nat)
    (bs : List Nat) (i : Nat) : (storeChunks d data bs i).length = d.length := by
  induction bs generalizing d i with
  | nil => rfl
  | cons b rest ih => simp [storeChunks, ih]

theorem storeChunks_getElem?_not_mem {d : List (List Nat)} {data : List Nat}
    {bs : List Nat} {i p : Nat} (hp : p ∉ bs) :
    (storeChunks d data bs i)[p]? = d[p]? := by
  induction bs generalizing d i with
  | nil => rfl
  | cons b rest ih =>
    unfold storeChunks
    rw [ih (fun hm => hp (List.mem_cons_of_mem _ hm))]
    refine List.getElem?_set_ne (fun hh => ?_)
    exact hp (by rw [← hh]; exact List.mem_cons_self b rest)

theorem storeChunks_getElem?_mem {d : List (List Nat)} {data : List Nat}
    {bs : List Nat} {i : Nat} (hnd : bs.Nodup) :
    ∀ (j bj : Nat), bs[j]? = some bj → bj < d.length →
      (storeChunks d data bs i)[bj]? = some (blockOf data (i + j)) := by
  induction bs generalizing d i with
  | nil => intro j bj h; simp at h
  | cons b rest ih =>
    intro j bj h hlt
    match j with
    | 0 =>
      rw [List.getElem?_cons_zero] at h
      cases h
      unfold storeChunks
      rw [storeChunks_getElem?_not_mem (List.nodup_cons.mp hnd).1, Nat.add_zero]
      exact List.getElem?_set_eq_of_lt _ hlt
    | j + 1 =>
      rw [List.getElem?_cons_succ] at h
      unfold storeChunks
      have hres := @ih (d.set b (blockOf data i)) (i + 1) (List.nodup_cons.mp hnd).2
        j bj h (by simpa using hlt)
      rw [show i + (j + 1) = (i + 1) + j from by omega]
      exact hres

theorem setVals_cons_offset (x : Nat) (bs vals : List Nat) (i : Nat) :
    setVals (x :: bs) vals (i + 1) = x :: setVals bs vals i := by
  induction vals generalizing bs x i with
  | nil => rfl
  | cons v rest ih =>
    show setVals ((x :: bs).set (i + 1) v) rest (i + 2) = _
    rw [List.set_cons_succ, ih]
    rfl

theorem setVals_replicate {vals : List Nat} {n : Nat} {c : Nat}
    (h : vals.length ≤ n) :
    setVals (List.replicate n c) vals 0 =
      vals ++ List.replicate (n - vals.length) c := by
  induction vals generalizing n with
  | nil => simp [setVals]
  | cons v rest ih =>
    match n with
    | 0 => simp at h
    | m + 1 =>
      show setVals ((List.replicate (m + 1) c).set 0 v) rest 1 = _
      rw [List.replicate_succ, List.set_cons_zero, setVals_cons_offset]
      rw [ih (by simpa using h)]
      simp

end CogFs

/-! ## Read-loop lemmas -/

namespace CogFs

theorem readGo_count_zero (d : List (List Nat)) (blocks : List Nat)
    (buf : List Nat) (w r : Nat) :
    readGo d blocks 0 buf w r = some (buf, w) := by
  cases blocks <;> rfl

theorem readGo_zero_remaining (d : List (List Nat)) (blocks : List Nat)
    (n : Nat) (buf : List Nat) (w : Nat) :
    readGo d blocks n buf w 0 = some (buf, w) := by
  cases n with
  | zero => exact readGo_count_zero ..
  | succ m => cases blocks <;> rfl

theorem readGo_cons_eq (d : List (List Nat)) (b : Nat) (rest : List Nat)
    (n : Nat) (buf : List Nat) (w r : Nat) :
    readGo d (b :: rest) (n + 1) buf w r =
      if r = 0 then some (buf, w)
      else if b < BLOCKS then
        readGo d rest n
          (overwriteAt buf w ((d.getD b []).take (min r BLOCK_SIZE)))
          (w + min r BLOCK_SIZE) (r - min r BLOCK_SIZE)
      else none := rfl

theorem readGo_cons (d : List (List Nat)) (b : Nat) (rest : List Nat)
    (n : Nat) (buf : List Nat) (w r : Nat) (hr : r ≠ 0) (hb : b < BLOCKS) :
    readGo d (b :: rest) (n + 1) buf w r =
      readGo d rest n (overwriteAt buf w ((d.getD b []).take (min r BLOCK_SIZE)))
        (w + min r BLOCK_SIZE) (r - min r BLOCK_SIZE) := by
  rw [readGo_cons_eq, if_neg hr, if_pos hb]

/-- Drop of an append past the first part. -/
theorem drop_append_ge {l1 l2 : List Nat} {n : Nat} (h : l1.length ≤ n) :
    (l1 ++ l2).drop n = l2.drop (n - l1.length) := by
  rw [show n = l1.length + (n - l1.length) from by omega, List.drop_append]
  congr 1
  omega

/-- Take of an append inside the first part's length bound. -/
theorem take_append_exact {l1 l2 : List Nat} :
    (l1 ++ l2).take l1.length = l1 := List.take_left ..

theorem chunkAt_length (data : List Nat) (i : Nat) :
    (chunkAt data i).length = min (data.length - BLOCK_SIZE * i) BLOCK_SIZE := by
  unfold chunkAt
  rw [List.length_take, List.length_drop, Nat.mul_comm i BLOCK_SIZE, Nat.min_comm]

/-- The block-walking loop of `read_into`, run over `bs.length` blocks
whose stored contents are the chunks of `data` from chunk `i` on:
it copies the rest of `data` into the buffer starting at position
`BLOCK_SIZE * i` and reports the total byte count. -/
theorem readGo_run (d' : List (List Nat)) (data : List Nat) (bs : List Nat) :
    ∀ (tail buf : List Nat) (i : Nat),
    (∀ (j bj : Nat), bs[j]? = some bj →
      d'[bj]? = some (blockOf data (i + j))) →
    (∀ b ∈ bs, b < BLOCKS) →
    data.length ≤ BLOCK_SIZE * (i + bs.length) →
    data.length ≤ buf.length →
    readGo d' (bs ++ tail) bs.length buf (BLOCK_SIZE * i)
        (data.length - BLOCK_SIZE * i) =
      some (buf.take (BLOCK_SIZE * i) ++ data.drop (BLOCK_SIZE * i) ++
        buf.drop (BLOCK_SIZE * i + (data.length - BLOCK_SIZE * i)),
        BLOCK_SIZE * i + (data.length - BLOCK_SIZE * i)) := by
  induction bs with
  | nil =>
    intro tail buf i _ _ hcap hbuf
    simp only [List.length_nil, Nat.add_zero] at hcap
    have hr : data.length - BLOCK_SIZE * i = 0 := by omega
    rw [hr, List.length_nil, List.nil_append, readGo_count_zero]
    have hdrop : data.drop (BLOCK_SIZE * i) = [] :=
      List.drop_eq_nil_of_le (by omega)
    rw [hdrop, List.append_nil, Nat.add_zero, List.take_append_drop]
  | cons b rest ih =>
    intro tail buf i hst hbs hcap hbuf
    have hcap' : data.length ≤ BLOCK_SIZE * i + BLOCK_SIZE * rest.length + BLOCK_SIZE := by
      have he : BLOCK_SIZE * (i + (b :: rest).length) =
          BLOCK_SIZE * i + BLOCK_SIZE * rest.length + BLOCK_SIZE := by
        rw [List.length_cons, Nat.mul_add, Nat.mul_succ]
        omega
      omega
    set w := BLOCK_SIZE * i with hw
    by_cases hr0 : data.length - w = 0
    · rw [hr0, readGo_zero_remaining]
      have hdrop : data.drop w = [] := List.drop_eq_nil_of_le (by omega)
      rw [hdrop, List.append_nil, Nat.add_zero, List.take_append_drop]
    · have hwlen : w < data.length := by omega
      have hclen : (chunkAt data i).length = min (data.length - w) BLOCK_SIZE := by
        rw [chunkAt_length, hw]
      have hchunk : (d'.getD b []).take (min (data.length - w) BLOCK_SIZE) =
          chunkAt data i := by
        have hb : d'[b]? = some (blockOf data (i + 0)) :=
          hst 0 b List.getElem?_cons_zero
        rw [Nat.add_zero] at hb
        rw [getD_eq, hb]
        show (blockOf data i).take (min (data.length - w) BLOCK_SIZE) = _
        unfold blockOf
        rw [← hclen, take_append_exact]
      rw [List.length_cons, List.cons_append,
        readGo_cons _ _ _ _ _ _ _ hr0 (hbs b (List.mem_cons_self b rest)), hchunk]
      by_cases hlast : data.length - w ≤ BLOCK_SIZE
      · -- final (possibly partial) chunk: the recursive call sees remaining 0
        have hmin : min (data.length - w) BLOCK_SIZE = data.length - w :=
          Nat.min_eq_left hlast
        rw [hmin, Nat.sub_self, readGo_zero_remaining]
        have hchunk_all : chunkAt data i = data.drop w := by
          unfold chunkAt
          rw [Nat.mul_comm i BLOCK_SIZE, ← hw,
            List.take_of_length_le (by rw [List.length_drop]; omega)]
        rw [hchunk_all]
        unfold overwriteAt
        rw [List.length_drop]
      · -- full chunk, recurse at i + 1
        have hmin : min (data.length - w) BLOCK_SIZE = BLOCK_SIZE :=
          Nat.min_eq_right (by omega)
        rw [hmin]
        have hw1 : BLOCK_SIZE * (i + 1) = w + BLOCK_SIZE := by
          rw [hw, Nat.mul_succ]
        have hchlen256 : (chunkAt data i).length = BLOCK_SIZE := by
          rw [hclen]; omega
        have hbuf2len : (overwriteAt buf w (chunkAt data i)).length = buf.length := by
          apply overwriteAt_length
          rw [hchlen256]
          omega
        have hres := ih tail (overwriteAt buf w (chunkAt data i)) (i + 1)
          (fun j bj hj => by
            have hh := hst (j + 1) bj (by rw [List.getElem?_cons_succ]; exact hj)
            rw [show i + (j + 1) = i + 1 + j from by omega] at hh
            exact hh)
          (fun x hx => hbs x (List.mem_cons_of_mem _ hx))
          (by
              have he2 : BLOCK_SIZE * (i + 1 + rest.length) =
                  w + BLOCK_SIZE + BLOCK_SIZE * rest.length := by
                rw [Nat.mul_add, Nat.mul_succ, ← hw]
              rw [he2]
              omega)
          (by rw [hbuf2len]; exact hbuf)
        rw [hw1] at hres
        rw [show data.length - w - BLOCK_SIZE = data.length - (w + BLOCK_SIZE) from by omega]
        rw [hres]
        -- now rewrite the three buffer pieces
        have hwle : w ≤ buf.length := by omega
        have htake : (overwriteAt buf w (chunkAt data i)).take (w + BLOCK_SIZE) =
            buf.take w ++ chunkAt data i := by
          unfold overwriteAt
          have hlen1 : (buf.take w ++ chunkAt data i).length = w + BLOCK_SIZE := by
            rw [List.length_append, List.length_take, hchlen256, Nat.min_eq_left hwle]
          rw [← hlen1, take_append_exact]
        have hdrop2 : (overwriteAt buf w (chunkAt data i)).drop
            (w + BLOCK_SIZE + (data.length - (w + BLOCK_SIZE))) =
            buf.drop (w + (data.length - w)) := by
          unfold overwriteAt
          rw [hchlen256]
          have hlen1 : (buf.take w ++ chunkAt data i).length = w + BLOCK_SIZE := by
            rw [List.length_append, List.length_take, hchlen256, Nat.min_eq_left hwle]
          rw [drop_append_ge (by rw [hlen1]; omega), hlen1, List.drop_drop]
          exact congrArg (fun n => List.drop n buf) (by omega)
        rw [htake, hdrop2]
        have hdata : chunkAt data i ++ data.drop (w + BLOCK_SIZE) = data.drop w := by
          unfold chunkAt
          rw [Nat.mul_comm i BLOCK_SIZE, ← hw, ← List.drop_drop, List.take_append_drop]
        rw [List.append_assoc (buf.take w) (chunkAt data i) (data.drop (w + BLOCK_SIZE)),
          hdata,
          show w + BLOCK_SIZE + (data.length - (w + BLOCK_SIZE)) = w + (data.length - w)
            from by omega]

end CogFs

/-! ## Write-path inversion -/

namespace CogFs

/-! ### Phase-1 equations and inversion -/

theorem find_entry_congr_entries {fs gs : SimpleFs} (h : fs.entries = gs.entries)
    (name : List Nat) : find_entry fs name = find_entry gs name := by
  unfold find_entry
  rw [h]

theorem writePhase1_existing {fs : SimpleFs} {name : List Nat} {idx : Nat}
    (h : find_entry fs name = some idx) :
    writePhase1 fs name =
      (free_blocks
        { fs with entries := fs.entries.set idx (clearedEntry (entryAt fs idx)) }
        (entryAt fs idx).blocks (entryAt fs idx).blocks_used).map .ok := by
  unfold writePhase1
  rw [h]

theorem writePhase1_new_full {fs : SimpleFs} {name : List Nat}
    (h1 : find_entry fs name = none) (h2 : find_free_entry fs = none) :
    writePhase1 fs name = some (.error .NoSpace) := by
  unfold writePhase1
  rw [h1, h2]

theorem writePhase1_new_slot {fs : SimpleFs} {name : List Nat} {idx : Nat}
    (h1 : find_entry fs name = none) (h2 : find_free_entry fs = some idx) :
    writePhase1 fs name =
      some (.ok { fs with entries := fs.entries.set idx (freshEntry name) }) := by
  unfold writePhase1
  rw [h1, h2]

theorem writePhase1_ok_inv {fs fs1 : SimpleFs} {name : List Nat}
    (h : writePhase1 fs name = some (.ok fs1)) :
    (∃ idx, find_entry fs name = some idx ∧
      free_blocks
        { fs with entries := fs.entries.set idx (clearedEntry (entryAt fs idx)) }
        (entryAt fs idx).blocks (entryAt fs idx).blocks_used = some fs1) ∨
    (∃ idx, find_entry fs name = none ∧ find_free_entry fs = some idx ∧
      fs1 = { fs with entries := fs.entries.set idx (freshEntry name) }) := by
  rcases hfe : find_entry fs name with _ | idx
  · rcases hff : find_free_entry fs with _ | idx
    · rw [writePhase1_new_full hfe hff] at h
      simp at h
    · right
      rw [writePhase1_new_slot hfe hff] at h
      simp only [Option.some.injEq, Except.ok.injEq] at h
      exact ⟨idx, rfl, rfl, h.symm⟩
  · left
    rw [writePhase1_existing hfe] at h
    refine ⟨idx, rfl, ?_⟩
    rcases hfb : free_blocks
        { fs with entries := fs.entries.set idx (clearedEntry (entryAt fs idx)) }
        (entryAt fs idx).blocks (entryAt fs idx).blocks_used with _ | fs2 <;>
      rw [hfb] at h
    · simp at h
    · simp only [Option.map_some', Option.some.injEq, Except.ok.injEq] at h
      rw [h]

end CogFs

namespace CogFs

/-! ### allocate_blocks inversion -/

theorem allocate_blocks_entries_data {fs fs2 : SimpleFs} {k : Nat}
    {r : Except FsError (List Nat)}
    (h : allocate_blocks fs k = some (fs2, r)) :
    fs2.entries = fs.entries ∧ fs2.data = fs.data := by
  unfold allocate_blocks at h
  split at h
  · simp only [Option.some.injEq, Prod.mk.injEq] at h
    rw [← h.1]
    exact ⟨rfl, rfl⟩
  · split at h
    · cases h
    · split at h <;>
        simp only [Option.some.injEq, Prod.mk.injEq] at h <;>
        rw [← h.1] <;> exact ⟨rfl, rfl⟩

theorem allocate_blocks_map_length {fs fs2 : SimpleFs} {k : Nat}
    {r : Except FsError (List Nat)}
    (h : allocate_blocks fs k = some (fs2, r)) :
    fs2.block_map.length = fs.block_map.length := by
  unfold allocate_blocks at h
  split at h
  · simp only [Option.some.injEq, Prod.mk.injEq] at h
    rw [← h.1]
  · split at h
    · cases h
    · rename_i m out hgo
      split at h <;> simp only [Option.some.injEq, Prod.mk.injEq] at h <;> rw [← h.1]
      · show (rollbackMap m out).length = _
        rw [rollbackMap_length, allocGo_length hgo]
      · exact allocGo_length hgo

/-- Inversion of a successful allocation of `1 ≤ k ≤ 16` blocks. -/
theorem allocate_ok_inv {fs1 fs2 : SimpleFs} {k : Nat} {allocated : List Nat}
    (h1 : 1 ≤ k) (h16 : k ≤ MAX_BLOCKS_PER_FILE)
    (h : allocate_blocks fs1 k = some (fs2, .ok allocated)) :
    allocated = (freeListFrom fs1.block_map 0).take k ∧
    allocated.length = k ∧
    allocated.Pairwise (· < ·) ∧
    (∀ x ∈ allocated, x < fs1.block_map.length ∧ fs1.block_map[x]? = some false) ∧
    fs2.block_map.length = fs1.block_map.length ∧
    (∀ p : Nat, fs2.block_map[p]? =
      if p ∈ allocated then some true else fs1.block_map[p]?) := by
  obtain ⟨m', hrun, hlen, hpt⟩ := allocGo_spec fs1.block_map 0 k 0 (by omega) h16
  rw [Nat.sub_zero] at hrun hpt
  rw [allocate_blocks_eq fs1 k (by unfold MAX_BLOCKS_PER_FILE at h16 ⊢; omega) hrun] at h
  split at h
  · simp at h
  · simp only [Option.some.injEq, Prod.mk.injEq, Except.ok.injEq] at h
    obtain ⟨hfs2, hout⟩ := h
    have hnotlt : ¬ ((freeListFrom fs1.block_map 0).take k).length < k := by assumption
    have hlen2 : allocated.length = k := by
      rw [← hout, List.length_take]
      rw [List.length_take] at hnotlt
      omega
    subst hout
    refine ⟨rfl, hlen2, ?_, ?_, ?_, ?_⟩
    · exact (freeListFrom_pairwise fs1.block_map 0).sublist (List.take_sublist ..)
    · intro x hx
      have hm := mem_freeListFrom.mp (List.mem_of_mem_take hx)
      have hlt := freeListFrom_lt x (List.mem_of_mem_take hx)
      exact ⟨by omega, by simpa using hm.2⟩
    · rw [← hfs2]
      exact hlen
    · intro p
      rw [← hfs2]
      have hq := hpt p
      rw [Nat.zero_add] at hq
      exact hq

end CogFs

namespace CogFs

/-! ### write step equations and inversion -/

theorem write_name_bad {fs : SimpleFs} {name data : List Nat}
    (h : name.length = 0 ∨ FILENAME_LEN < name.length) :
    write fs name data = some (fs, some .NameTooLong) := by
  unfold write
  rw [if_pos h]

theorem write_phase1_none {fs : SimpleFs} {name data : List Nat}
    (hlen : ¬(name.length = 0 ∨ FILENAME_LEN < name.length))
    (h : writePhase1 fs name = none) : write fs name data = none := by
  unfold write
  simp only [if_neg hlen, h]

theorem write_phase1_err {fs : SimpleFs} {name data : List Nat} {er : FsError}
    (hlen : ¬(name.length = 0 ∨ FILENAME_LEN < name.length))
    (h : writePhase1 fs name = some (.error er)) :
    write fs name data = some (fs, some er) := by
  unfold write
  simp only [if_neg hlen, h]

theorem write_too_big {fs fs1 : SimpleFs} {name data : List Nat}
    (hlen : ¬(name.length = 0 ∨ FILENAME_LEN < name.length))
    (h : writePhase1 fs name = some (.ok fs1))
    (hk : MAX_BLOCKS_PER_FILE < blocksNeeded data) :
    write fs name data = some (fs1, some .TooManyBlocks) := by
  unfold write
  simp only [if_neg hlen, h, if_pos hk]

theorem write_alloc_none {fs fs1 : SimpleFs} {name data : List Nat}
    (hlen : ¬(name.length = 0 ∨ FILENAME_LEN < name.length))
    (h : writePhase1 fs name = some (.ok fs1))
    (hk : ¬ MAX_BLOCKS_PER_FILE < blocksNeeded data)
    (ha : allocate_blocks fs1 (blocksNeeded data) = none) :
    write fs name data = none := by
  unfold write
  simp only [if_neg hlen, h, if_neg hk, ha]

theorem write_alloc_err {fs fs1 fs2 : SimpleFs} {name data : List Nat} {er : FsError}
    (hlen : ¬(name.length = 0 ∨ FILENAME_LEN < name.length))
    (h : writePhase1 fs name = some (.ok fs1))
    (hk : ¬ MAX_BLOCKS_PER_FILE < blocksNeeded data)
    (ha : allocate_blocks fs1 (blocksNeeded data) = some (fs2, .error er)) :
    write fs name data = some (fs2, some er) := by
  unfold write
  simp only [if_neg hlen, h, if_neg hk, ha]

theorem write_find_none {fs fs1 fs2 : SimpleFs} {name data : List Nat}
    {allocated : List Nat}
    (hlen : ¬(name.length = 0 ∨ FILENAME_LEN < name.length))
    (h : writePhase1 fs name = some (.ok fs1))
    (hk : ¬ MAX_BLOCKS_PER_FILE < blocksNeeded data)
    (ha : allocate_blocks fs1 (blocksNeeded data) = some (fs2, .ok allocated))
    (hf : find_entry fs2 name = none) :
    write fs name data = none := by
  unfold write
  simp only [if_neg hlen, h, if_neg hk, ha, hf]

theorem write_commit_eq {fs fs1 fs2 : SimpleFs} {name data : List Nat}
    {allocated : List Nat} {idx : Nat}
    (hlen : ¬(name.length = 0 ∨ FILENAME_LEN < name.length))
    (h : writePhase1 fs name = some (.ok fs1))
    (hk : ¬ MAX_BLOCKS_PER_FILE < blocksNeeded data)
    (ha : allocate_blocks fs1 (blocksNeeded data) = some (fs2, .ok allocated))
    (hf : find_entry fs2 name = some idx) :
    write fs name data =
      some (writeCommit fs2 data (blocksNeeded data) allocated idx, none) := by
  unfold write
  simp only [if_neg hlen, h, if_neg hk, ha, hf]

/-- Inversion of a successful `write`. -/
theorem write_ok_inv {fs fs' : SimpleFs} {name data : List Nat}
    (h : write fs name data = some (fs', none)) :
    ∃ fs1 fs2 allocated idx,
      ¬(name.length = 0 ∨ FILENAME_LEN < name.length) ∧
      writePhase1 fs name = some (.ok fs1) ∧
      blocksNeeded data ≤ MAX_BLOCKS_PER_FILE ∧
      allocate_blocks fs1 (blocksNeeded data) = some (fs2, .ok allocated) ∧
      find_entry fs2 name = some idx ∧
      fs' = writeCommit fs2 data (blocksNeeded data) allocated idx := by
  by_cases hlen : name.length = 0 ∨ FILENAME_LEN < name.length
  · rw [write_name_bad hlen] at h
    simp at h
  · rcases hp1 : writePhase1 fs name with _ | r
    · rw [write_phase1_none hlen hp1] at h
      cases h
    · match r with
      | .error er =>
        rw [write_phase1_err hlen hp1] at h
        simp at h
      | .ok fs1 =>
        by_cases hk : MAX_BLOCKS_PER_FILE < blocksNeeded data
        · rw [write_too_big hlen hp1 hk] at h
          simp at h
        · rcases ha : allocate_blocks fs1 (blocksNeeded data) with _ | ⟨fs2, ar⟩
          · rw [write_alloc_none hlen hp1 hk ha] at h
            cases h
          · match ar with
            | .error er =>
              rw [write_alloc_err hlen hp1 hk ha] at h
              simp at h
            | .ok allocated =>
              rcases hf : find_entry fs2 name with _ | idx
              · rw [write_find_none hlen hp1 hk ha hf] at h
                cases h
              · rw [write_commit_eq hlen hp1 hk ha hf] at h
                simp only [Option.some.injEq, Prod.mk.injEq] at h
                exact ⟨fs1, fs2, allocated, idx, hlen, rfl, by omega, ha, hf, h.1.symm⟩

end CogFs

/-! ## Shape and stability lemmas -/

namespace CogFs

/-! ### Shape lemmas -/

theorem setVals_length (bs vals : List Nat) (i : Nat) :
    (setVals bs vals i).length = bs.length := by
  induction vals generalizing bs i with
  | nil => rfl
  | cons v rest ih =>
    show (setVals (bs.set i v) rest (i + 1)).length = _
    rw [ih, List.length_set]

theorem setVals_mem {bs vals : List Nat} {i : Nat} :
    ∀ x ∈ setVals bs vals i, x ∈ bs ∨ x ∈ vals := by
  induction vals generalizing bs i with
  | nil => intro x hx; exact Or.inl hx
  | cons v rest ih =>
    intro x hx
    rcases ih x hx with hmem | hmem
    · rcases List.mem_or_eq_of_mem_set hmem with hmem2 | rfl
      · exact Or.inl hmem2
      · exact Or.inr (List.mem_cons_self ..)
    · exact Or.inr (List.mem_cons_of_mem _ hmem)

theorem blockOf_length (data : List Nat) (i : Nat) :
    (blockOf data i).length = BLOCK_SIZE := by
  unfold blockOf
  rw [List.length_append, List.length_replicate]
  have := chunkAt_length data i
  omega

theorem storeChunks_rows {d : List (List Nat)} {data : List Nat}
    {bs : List Nat} {i : Nat} :
    ∀ r ∈ storeChunks d data bs i, r ∈ d ∨ ∃ j, r = blockOf data j := by
  induction bs generalizing d i with
  | nil => intro r hr; exact Or.inl hr
  | cons b rest ih =>
    intro r hr
    rcases ih r hr with hmem | hmem
    · rcases List.mem_or_eq_of_mem_set hmem with hmem2 | rfl
      · exact Or.inl hmem2
      · exact Or.inr ⟨i, rfl⟩
    · exact Or.inr hmem

theorem freeGo_shape {m m' : List Bool} {d d' : List (List Nat)}
    {blocks : List Nat} {n : Nat}
    (h : freeGo m d blocks n = some (m', d')) :
    m'.length = m.length ∧ d'.length = d.length ∧
    (∀ r ∈ d', r ∈ d ∨ r = List.replicate BLOCK_SIZE 0) := by
  induction n generalizing blocks m d with
  | zero =>
    rw [freeGo_zero] at h
    cases h
    exact ⟨rfl, rfl, fun r hr => Or.inl hr⟩
  | succ k ih =>
    match blocks with
    | [] => cases h
    | b :: rest =>
      rw [freeGo_cons] at h
      split_ifs at h
      · exact ih h
      · obtain ⟨h1, h2, h3⟩ := ih h
        refine ⟨by rw [h1, List.length_set], by rw [h2, List.length_set], ?_⟩
        intro r hr
        rcases h3 r hr with hmem | hmem
        · rcases List.mem_or_eq_of_mem_set hmem with hmem2 | rfl
          · exact Or.inl hmem2
          · exact Or.inr rfl
        · exact Or.inr hmem

theorem free_blocks_shape {fs fs' : SimpleFs} {blocks : List Nat} {n : Nat}
    (h : free_blocks fs blocks n = some fs') :
    fs'.entries = fs.entries ∧
    fs'.block_map.length = fs.block_map.length ∧
    fs'.data.length = fs.data.length ∧
    (∀ r ∈ fs'.data, r ∈ fs.data ∨ r = List.replicate BLOCK_SIZE 0) := by
  unfold free_blocks at h
  rcases hgo : freeGo fs.block_map fs.data blocks n with _ | ⟨m', d'⟩ <;>
    rw [hgo] at h
  · cases h
  · obtain ⟨h1, h2, h3⟩ := freeGo_shape hgo
    simp only [Option.map_some', Option.some.injEq] at h
    rw [← h]
    exact ⟨rfl, h1, h2, h3⟩

theorem padName_length {name : List Nat} (h : name.length ≤ FILENAME_LEN) :
    (padName name).length = FILENAME_LEN := by
  unfold padName
  rw [List.length_append, List.length_replicate]
  omega

/-! ### entryAt and find_entry helpers -/

theorem entryAt_getElem? {fs : SimpleFs} {idx : Nat}
    (h : idx < fs.entries.length) :
    fs.entries[idx]? = some (entryAt fs idx) := by
  unfold entryAt
  rw [getD_eq, List.getElem?_eq_getElem h]
  rfl

theorem entryAt_set_self {fs : SimpleFs} {idx : Nat} {e' : FileEntry}
    (h : idx < fs.entries.length) :
    entryAt { fs with entries := fs.entries.set idx e' } idx = e' := by
  unfold entryAt
  rw [getD_eq]
  show ((fs.entries.set idx e')[idx]?).getD defaultEntry = e'
  rw [List.getElem?_set_eq_of_lt _ h]
  rfl

theorem entryMatches_clearedEntry (e : FileEntry) (name : List Nat) :
    entryMatches (clearedEntry e) name = entryMatches e name := rfl

theorem findIdxFrom_set_congr {p : α → Bool} {l : List α} {idx : Nat}
    {e e' : α} (he : l[idx]? = some e) (hmatch : p e' = p e) (i : Nat) :
    findIdxFrom p (l.set idx e') i = findIdxFrom p l i := by
  apply findIdxFrom_congr
  rw [List.map_set, hmatch]
  apply set_getElem?_self
  rw [List.getElem?_map, he]
  rfl

theorem writeCommit_entries (fs2 : SimpleFs) (data allocated : List Nat)
    (k idx : Nat) :
    (writeCommit fs2 data k allocated idx).entries =
      fs2.entries.set idx
        { entryAt fs2 idx with
          blocks := setVals (entryAt fs2 idx).blocks (allocated.take k) 0,
          blocks_used := k, size := data.length } := rfl

theorem writeCommit_data (fs2 : SimpleFs) (data allocated : List Nat)
    (k idx : Nat) :
    (writeCommit fs2 data k allocated idx).data =
      storeChunks fs2.data data (allocated.take k) 0 := rfl

theorem writeCommit_block_map (fs2 : SimpleFs) (data allocated : List Nat)
    (k idx : Nat) :
    (writeCommit fs2 data k allocated idx).block_map = fs2.block_map := rfl


/-- After the existing-file phase 1, the same slot is still the first
match for the name (lookup reads only `used` and `name`, which the
reset keeps). -/
theorem phase1_existing_find {fs fs1 : SimpleFs} {name : List Nat} {idx : Nat}
    (hfe : find_entry fs name = some idx)
    (hfb : free_blocks
      { fs with entries := fs.entries.set idx (clearedEntry (entryAt fs idx)) }
      (entryAt fs idx).blocks (entryAt fs idx).blocks_used = some fs1) :
    find_entry fs1 name = some idx := by
  have hidx : idx < fs.entries.length := find_entry_some_lt hfe
  have hent := (free_blocks_shape hfb).1
  show findIdxFrom (fun e => entryMatches e name) fs1.entries 0 = some idx
  rw [hent]
  exact (findIdxFrom_set_congr (entryAt_getElem? hidx)
    (entryMatches_clearedEntry (entryAt fs idx) name) 0).trans hfe

/-- The commit step does not change which slot a lookup returns. -/
theorem writeCommit_find {fs2 : SimpleFs} {data allocated : List Nat}
    {k idx : Nat} (hidx : idx < fs2.entries.length) (name : List Nat) :
    find_entry (writeCommit fs2 data k allocated idx) name =
      find_entry fs2 name := by
  show findIdxFrom (fun e => entryMatches e name)
    (writeCommit fs2 data k allocated idx).entries 0 = _
  rw [writeCommit_entries]
  have hm : entryMatches
      { entryAt fs2 idx with
        blocks := setVals (entryAt fs2 idx).blocks (allocated.take k) 0,
        blocks_used := k, size := data.length } name =
      entryMatches (entryAt fs2 idx) name := rfl
  exact findIdxFrom_set_congr (entryAt_getElem? hidx) hm 0

/-! ## Preservation of well-formedness and range invariants -/


/-! ### WF and InRange preservation -/

theorem WF_entry_at {fs : SimpleFs} (hWF : WF fs) {idx : Nat}
    (h : idx < fs.entries.length) :
    (entryAt fs idx).name.length = FILENAME_LEN ∧
    (entryAt fs idx).blocks.length = MAX_BLOCKS_PER_FILE :=
  hWF.2.2.2.1 _ (getD_mem h)

theorem WF_set_entry {fs : SimpleFs} (hWF : WF fs) {idx : Nat} {e' : FileEntry}
    (hname : e'.name.length = FILENAME_LEN)
    (hblocks : e'.blocks.length = MAX_BLOCKS_PER_FILE) :
    WF { fs with entries := fs.entries.set idx e' } := by
  obtain ⟨h1, h2, h3, h4, h5⟩ := hWF
  refine ⟨by simpa using h1, h2, h3, ?_, h5⟩
  intro e he
  rcases List.mem_or_eq_of_mem_set he with hmem | rfl
  · exact h4 e hmem
  · exact ⟨hname, hblocks⟩

theorem WF_free_blocks {fs fs' : SimpleFs} {blocks : List Nat} {n : Nat}
    (hWF : WF fs) (h : free_blocks fs blocks n = some fs') : WF fs' := by
  obtain ⟨he, hm, hd, hrows⟩ := free_blocks_shape h
  obtain ⟨h1, h2, h3, h4, h5⟩ := hWF
  refine ⟨by rw [he]; exact h1, by rw [hm]; exact h2, by rw [hd]; exact h3,
    by rw [he]; exact h4, ?_⟩
  intro r hr
  rcases hrows r hr with hmem | rfl
  · exact h5 r hmem
  · simp

theorem WF_writePhase1 {fs fs1 : SimpleFs} {name : List Nat}
    (hWF : WF fs) (hname : name.length ≤ FILENAME_LEN)
    (h : writePhase1 fs name = some (.ok fs1)) : WF fs1 := by
  rcases writePhase1_ok_inv h with ⟨idx, hfe, hfb⟩ | ⟨idx, hfe, hff, heq⟩
  · have hidx := find_entry_some_lt hfe
    refine WF_free_blocks (WF_set_entry hWF ?_ ?_) hfb
    · exact (WF_entry_at hWF hidx).1
    · simp [clearedEntry]
  · subst heq
    refine WF_set_entry hWF ?_ ?_
    · exact padName_length hname
    · simp [freshEntry]

theorem WF_allocate {fs1 fs2 : SimpleFs} {k : Nat} {r : Except FsError (List Nat)}
    (hWF : WF fs1) (h : allocate_blocks fs1 k = some (fs2, r)) : WF fs2 := by
  obtain ⟨hent, hdata⟩ := allocate_blocks_entries_data h
  have hmap := allocate_blocks_map_length h
  obtain ⟨h1, h2, h3, h4, h5⟩ := hWF
  exact ⟨by rw [hent]; exact h1, by rw [hmap]; exact h2, by rw [hdata]; exact h3,
    by rw [hent]; exact h4, by rw [hdata]; exact h5⟩

theorem WF_writeCommit {fs2 : SimpleFs} {data allocated : List Nat} {k idx : Nat}
    (hWF : WF fs2) (hidx : idx < fs2.entries.length) :
    WF (writeCommit fs2 data k allocated idx) := by
  obtain ⟨h1, h2, h3, h4, h5⟩ := hWF
  refine ⟨?_, h2, ?_, ?_, ?_⟩
  · rw [writeCommit_entries]
    simpa using h1
  · rw [writeCommit_data, storeChunks_length]
    exact h3
  · rw [writeCommit_entries]
    intro e he
    rcases List.mem_or_eq_of_mem_set he with hmem | rfl
    · exact h4 e hmem
    · constructor
      · exact (h4 _ (getD_mem hidx)).1
      · show (setVals (entryAt fs2 idx).blocks (allocated.take k) 0).length = _
        rw [setVals_length]
        exact (h4 _ (getD_mem hidx)).2
  · rw [writeCommit_data]
    intro r hr
    rcases storeChunks_rows r hr with hmem | ⟨j, rfl⟩
    · exact h5 r hmem
    · exact blockOf_length data j

theorem WF_create {fs : SimpleFs} (hWF : WF fs) (name : List Nat) :
    WF (create fs name).1 := by
  unfold create
  by_cases hlen : name.length = 0 ∨ FILENAME_LEN < name.length
  · rw [if_pos hlen]; exact hWF
  · rw [if_neg hlen]
    by_cases hei : (find_entry fs name).isSome
    · simp only [hei, if_true]; exact hWF
    · simp only [hei, Bool.false_eq_true, if_false]
      rcases hff : find_free_entry fs with _ | idx
      · exact hWF
      · refine WF_set_entry hWF (padName_length (by omega)) ?_
        simp [freshEntry]

theorem WF_delete {fs fs' : SimpleFs} {name : List Nat}
    {r : Option FsError} (hWF : WF fs)
    (h : delete fs name = some (fs', r)) : WF fs' := by
  unfold delete at h
  rcases hfe : find_entry fs name with _ | idx <;> rw [hfe] at h
  · simp only [Option.some.injEq, Prod.mk.injEq] at h
    rw [← h.1]; exact hWF
  · rcases hfb : free_blocks { fs with entries := fs.entries.set idx defaultEntry }
        (entryAt fs idx).blocks (entryAt fs idx).blocks_used with _ | fs2 <;>
      simp only [hfb, Option.map_none', Option.map_some'] at h
    · cases h
    · simp only [Option.some.injEq, Prod.mk.injEq] at h
      rw [← h.1]
      exact WF_free_blocks (WF_set_entry hWF (by simp [defaultEntry])
        (by simp [defaultEntry])) hfb

theorem WF_write {fs fs' : SimpleFs} {name data : List Nat} {r : Option FsError}
    (hWF : WF fs) (h : write fs name data = some (fs', r)) : WF fs' := by
  by_cases hlen : name.length = 0 ∨ FILENAME_LEN < name.length
  · rw [write_name_bad hlen] at h
    simp only [Option.some.injEq, Prod.mk.injEq] at h
    rw [← h.1]; exact hWF
  · have hname : name.length ≤ FILENAME_LEN := by push_neg at hlen; omega
    rcases hp1 : writePhase1 fs name with _ | p1
    · rw [write_phase1_none hlen hp1] at h; cases h
    · match p1 with
      | .error er =>
        rw [write_phase1_err hlen hp1] at h
        simp only [Option.some.injEq, Prod.mk.injEq] at h
        rw [← h.1]; exact hWF
      | .ok fs1 =>
        have hWF1 := WF_writePhase1 hWF hname hp1
        by_cases hk : MAX_BLOCKS_PER_FILE < blocksNeeded data
        · rw [write_too_big hlen hp1 hk] at h
          simp only [Option.some.injEq, Prod.mk.injEq] at h
          rw [← h.1]; exact hWF1
        · rcases ha : allocate_blocks fs1 (blocksNeeded data) with _ | ⟨fs2, ar⟩
          · rw [write_alloc_none hlen hp1 hk ha] at h; cases h
          · have hWF2 := WF_allocate hWF1 ha
            match ar with
            | .error er =>
              rw [write_alloc_err hlen hp1 hk ha] at h
              simp only [Option.some.injEq, Prod.mk.injEq] at h
              rw [← h.1]; exact hWF2
            | .ok allocated =>
              rcases hf : find_entry fs2 name with _ | idx
              · rw [write_find_none hlen hp1 hk ha hf] at h; cases h
              · rw [write_commit_eq hlen hp1 hk ha hf] at h
                simp only [Option.some.injEq, Prod.mk.injEq] at h
                rw [← h.1]
                exact WF_writeCommit hWF2 (find_entry_some_lt hf)


theorem InRange_set_entry {fs : SimpleFs} (hIR : InRange fs) {idx : Nat}
    {e' : FileEntry} (hu : e'.blocks_used ≤ MAX_BLOCKS_PER_FILE)
    (hb : ∀ b ∈ e'.blocks, b = 255 ∨ b < BLOCKS) :
    InRange { fs with entries := fs.entries.set idx e' } := by
  intro e he
  rcases List.mem_or_eq_of_mem_set he with hmem | rfl
  · exact hIR e hmem
  · exact ⟨hu, hb⟩

theorem InRange_free_blocks {fs fs' : SimpleFs} {blocks : List Nat} {n : Nat}
    (hIR : InRange fs) (h : free_blocks fs blocks n = some fs') : InRange fs' := by
  intro e he
  rw [free_blocks_entries h] at he
  exact hIR e he

theorem InRange_create {fs : SimpleFs} (hIR : InRange fs) (name : List Nat) :
    InRange (create fs name).1 := by
  unfold create
  by_cases hlen : name.length = 0 ∨ FILENAME_LEN < name.length
  · rw [if_pos hlen]; exact hIR
  · rw [if_neg hlen]
    by_cases hei : (find_entry fs name).isSome
    · simp only [hei, if_true]; exact hIR
    · simp only [hei, Bool.false_eq_true, if_false]
      rcases hff : find_free_entry fs with _ | idx
      · exact hIR
      · refine InRange_set_entry hIR (by simp [freshEntry]) ?_
        intro b hb
        simp only [freshEntry] at hb
        left
        exact (List.eq_of_mem_replicate hb)

theorem InRange_delete {fs fs' : SimpleFs} {name : List Nat}
    {r : Option FsError} (hIR : InRange fs)
    (h : delete fs name = some (fs', r)) : InRange fs' := by
  unfold delete at h
  rcases hfe : find_entry fs name with _ | idx <;> rw [hfe] at h
  · simp only [Option.some.injEq, Prod.mk.injEq] at h
    rw [← h.1]; exact hIR
  · rcases hfb : free_blocks { fs with entries := fs.entries.set idx defaultEntry }
        (entryAt fs idx).blocks (entryAt fs idx).blocks_used with _ | fs2 <;>
      simp only [hfb, Option.map_none', Option.map_some'] at h
    · cases h
    · simp only [Option.some.injEq, Prod.mk.injEq] at h
      rw [← h.1]
      refine InRange_free_blocks (InRange_set_entry hIR (by simp [defaultEntry]) ?_) hfb
      intro b hb
      simp only [defaultEntry] at hb
      left
      exact List.eq_of_mem_replicate hb

theorem InRange_writePhase1 {fs fs1 : SimpleFs} {name : List Nat}
    (hIR : InRange fs) (h : writePhase1 fs name = some (.ok fs1)) : InRange fs1 := by
  rcases writePhase1_ok_inv h with ⟨idx, hfe, hfb⟩ | ⟨idx, hfe, hff, heq⟩
  · refine InRange_free_blocks (InRange_set_entry hIR (by simp [clearedEntry]) ?_) hfb
    intro b hb
    simp only [clearedEntry] at hb
    left
    exact List.eq_of_mem_replicate hb
  · subst heq
    refine InRange_set_entry hIR (by simp [freshEntry]) ?_
    intro b hb
    simp only [freshEntry] at hb
    left
    exact List.eq_of_mem_replicate hb

theorem InRange_allocate {fs1 fs2 : SimpleFs} {k : Nat}
    {r : Except FsError (List Nat)} (hIR : InRange fs1)
    (h : allocate_blocks fs1 k = some (fs2, r)) : InRange fs2 := by
  intro e he
  rw [(allocate_blocks_entries_data h).1] at he
  exact hIR e he

theorem InRange_writeCommit {fs2 : SimpleFs} {data allocated : List Nat}
    {k idx : Nat} (hIR : InRange fs2) (hidx : idx < fs2.entries.length)
    (hk : k ≤ MAX_BLOCKS_PER_FILE)
    (halloc : ∀ x ∈ allocated.take k, x < BLOCKS) :
    InRange (writeCommit fs2 data k allocated idx) := by
  intro e he
  rw [writeCommit_entries] at he
  rcases List.mem_or_eq_of_mem_set he with hmem | rfl
  · exact hIR e hmem
  · refine ⟨hk, ?_⟩
    intro b hb
    rcases setVals_mem b hb with hmem2 | hmem2
    · exact (hIR _ (getD_mem hidx)).2 b hmem2
    · exact Or.inr (halloc b hmem2)

theorem InRange_write {fs fs' : SimpleFs} {name data : List Nat}
    {r : Option FsError} (hWF : WF fs) (hIR : InRange fs)
    (h : write fs name data = some (fs', r)) : InRange fs' := by
  by_cases hlen : name.length = 0 ∨ FILENAME_LEN < name.length
  · rw [write_name_bad hlen] at h
    simp only [Option.some.injEq, Prod.mk.injEq] at h
    rw [← h.1]; exact hIR
  · have hname : name.length ≤ FILENAME_LEN := by push_neg at hlen; omega
    rcases hp1 : writePhase1 fs name with _ | p1
    · rw [write_phase1_none hlen hp1] at h; cases h
    · match p1 with
      | .error er =>
        rw [write_phase1_err hlen hp1] at h
        simp only [Option.some.injEq, Prod.mk.injEq] at h
        rw [← h.1]; exact hIR
      | .ok fs1 =>
        have hWF1 := WF_writePhase1 hWF hname hp1
        have hIR1 := InRange_writePhase1 hIR hp1
        by_cases hk : MAX_BLOCKS_PER_FILE < blocksNeeded data
        · rw [write_too_big hlen hp1 hk] at h
          simp only [Option.some.injEq, Prod.mk.injEq] at h
          rw [← h.1]; exact hIR1
        · rcases ha : allocate_blocks fs1 (blocksNeeded data) with _ | ⟨fs2, ar⟩
          · rw [write_alloc_none hlen hp1 hk ha] at h; cases h
          · have hIR2 := InRange_allocate hIR1 ha
            match ar with
            | .error er =>
              rw [write_alloc_err hlen hp1 hk ha] at h
              simp only [Option.some.injEq, Prod.mk.injEq] at h
              rw [← h.1]; exact hIR2
            | .ok allocated =>
              rcases hf : find_entry fs2 name with _ | idx
              · rw [write_find_none hlen hp1 hk ha hf] at h; cases h
              · rw [write_commit_eq hlen hp1 hk ha hf] at h
                simp only [Option.some.injEq, Prod.mk.injEq] at h
                rw [← h.1]
                refine InRange_writeCommit hIR2 (find_entry_some_lt hf)
                  (by omega) ?_
                rcases Nat.eq_zero_or_pos (blocksNeeded data) with hz | hpos
                · rw [hz]
                  simp
                · intro x hx
                  have hxal : x ∈ allocated := List.take_subset _ _ hx
                  have hbound := ((allocate_ok_inv hpos (by omega) ha).2.2.2.1 x hxal).1
                  have hml : fs1.block_map.length = BLOCKS := hWF1.2.1
                  omega

set_option maxRecDepth 4096 in
theorem reachable_WF_InRange {fs : SimpleFs} (h : Reachable fs) :
    WF fs ∧ InRange fs := by
  induction h with
  | init => exact ⟨by decide, by decide⟩
  | createStep hr ih => exact ⟨WF_create ih.1 _, InRange_create ih.2 _⟩
  | deleteStep hr hd ih => exact ⟨WF_delete ih.1 hd, InRange_delete ih.2 hd⟩
  | writeStep hr hw ih => exact ⟨WF_write ih.1 hw, InRange_write ih.1 ih.2 hw⟩


/-! ### Totality of the panic-prone loops on well-formed stores -/

theorem freeGo_total (blocks : List Nat) :
    ∀ (m : List Bool) (d : List (List Nat)) (n : Nat), n ≤ blocks.length →
    (∀ b ∈ blocks, b = 255 ∨ b < BLOCKS) →
    ∃ r, freeGo m d blocks n = some r := by
  induction blocks with
  | nil =>
    intro m d n hn _
    have hn0 : n = 0 := by simpa using hn
    subst hn0
    exact ⟨(m, d), rfl⟩
  | cons b rest ih =>
    intro m d n hn hb
    cases n with
    | zero => exact ⟨(m, d), rfl⟩
    | succ k =>
      have hk : k ≤ rest.length := by
        simp only [List.length_cons] at hn
        omega
      rcases hb b (List.mem_cons_self b rest) with h255 | hlt
      · subst h255
        obtain ⟨r, hr⟩ := ih m d k hk
          (fun x hx => hb x (List.mem_cons_of_mem _ hx))
        exact ⟨r, by rw [freeGo_cons]; simp only [if_pos rfl]; exact hr⟩
      · have hne : b ≠ 255 := by
          have hB : BLOCKS = 64 := rfl
          omega
        obtain ⟨r, hr⟩ := ih (m.set b false) (d.set b (List.replicate BLOCK_SIZE 0))
          k hk (fun x hx => hb x (List.mem_cons_of_mem _ hx))
        exact ⟨r, by rw [freeGo_cons]; simp only [if_neg hne, if_pos hlt]; exact hr⟩

theorem free_blocks_total {fs : SimpleFs} {blocks : List Nat} {n : Nat}
    (hn : n ≤ blocks.length) (hb : ∀ b ∈ blocks, b = 255 ∨ b < BLOCKS) :
    ∃ fs', free_blocks fs blocks n = some fs' := by
  obtain ⟨r, hr⟩ := freeGo_total blocks fs.block_map fs.data n hn hb
  exact ⟨_, by unfold free_blocks; rw [hr]; rfl⟩

theorem writePhase1_total {fs : SimpleFs} (hWF : WF fs) (hIR : InRange fs)
    (name : List Nat) : ∃ r, writePhase1 fs name = some r := by
  rcases hfe : find_entry fs name with _ | idx
  · rcases hff : find_free_entry fs with _ | j
    · exact ⟨_, writePhase1_new_full hfe hff⟩
    · exact ⟨_, writePhase1_new_slot hfe hff⟩
  · have hidx : idx < fs.entries.length := find_entry_some_lt hfe
    have hmem : entryAt fs idx ∈ fs.entries := getD_mem hidx
    have h1 := (hWF.2.2.2.1 _ hmem).2
    have h2 := (hIR _ hmem).1
    obtain ⟨fs', hfb⟩ := @free_blocks_total
      { fs with entries := fs.entries.set idx (clearedEntry (entryAt fs idx)) }
      (entryAt fs idx).blocks (entryAt fs idx).blocks_used
      (by omega) ((hIR _ hmem).2)
    exact ⟨_, (writePhase1_existing hfe).trans (by rw [hfb]; rfl)⟩

theorem allocGo_total (m : List Bool) :
    ∀ (base need found : Nat), found < need → need ≤ MAX_BLOCKS_PER_FILE →
    ∃ r, allocGo m base need found = some r := by
  induction m with
  | nil => intro base need found _ _; exact ⟨([], []), rfl⟩
  | cons b rest ih =>
    intro base need found hlt h16
    cases b
    · by_cases hlast : found + 1 = need
      · refine ⟨(true :: rest, [base]), ?_⟩
        unfold allocGo
        rw [if_neg (by simp), if_neg (by omega), if_pos hlast]
      · obtain ⟨r, hr⟩ := ih (base + 1) need (found + 1) (by omega) h16
        refine ⟨(true :: r.1, base :: r.2), ?_⟩
        unfold allocGo
        rw [if_neg (by simp), if_neg (by omega), if_neg hlast, hr]
        rfl
    · obtain ⟨r, hr⟩ := ih (base + 1) need found hlt h16
      refine ⟨(true :: r.1, r.2), ?_⟩
      unfold allocGo
      rw [if_pos rfl, hr]
      rfl

theorem allocate_blocks_total (fs : SimpleFs) {k : Nat} (h1 : 1 ≤ k)
    (h16 : k ≤ MAX_BLOCKS_PER_FILE) :
    ∃ r, allocate_blocks fs k = some r := by
  obtain ⟨⟨m, out⟩, hr⟩ := allocGo_total fs.block_map 0 k 0 (by omega) h16
  by_cases hshort : out.length < k
  · refine ⟨({ fs with block_map := rollbackMap m out }, .error .NoSpace), ?_⟩
    unfold allocate_blocks
    rw [if_neg (by omega), hr]
    simp [hshort]
  · refine ⟨({ fs with block_map := m }, .ok out), ?_⟩
    unfold allocate_blocks
    rw [if_neg (by omega), hr]
    simp [hshort]

theorem getLast?_mem {l : List Nat} {a : Nat} (h : l.getLast? = some a) : a ∈ l := by
  induction l with
  | nil => cases h
  | cons x xs ih =>
    cases xs with
    | nil =>
      simp only [List.getLast?_singleton, Option.some.injEq] at h
      simp [h]
    | cons y ys =>
      rw [List.getLast?_cons_cons] at h
      exact List.mem_cons_of_mem _ (ih h)

theorem blocksNeeded_pos {data : List Nat} (hd : data ≠ []) :
    1 ≤ blocksNeeded data := by
  unfold blocksNeeded
  have : 1 ≤ data.length := List.length_pos.mpr hd
  show 1 ≤ (data.length + 256 - 1) / 256
  omega

/-- Claim C10 (amended): for every reachable store, every NUL-free valid
UTF-8 name of length 1 through `FILENAME_LEN`, and every *non-empty*
payload, `write` never panics: the phase-1 bookkeeping, the block
allocation, and the post-allocation `find_entry(name).unwrap()` all
succeed or fail with an error value, never a panic.  (The original claim
quantified over every payload; `c10_counterexample` shows the empty
payload panics inside `allocate_blocks` on the fresh store, because the
`found == blocks_needed` break never fires when `blocks_needed = 0`.) -/
theorem c10_write_no_panic {fs : SimpleFs} {name data : List Nat}
    (hr : Reachable fs) (hlo : 1 ≤ name.length)
    (hhi : name.length ≤ FILENAME_LEN) (hv : validUtf8 name = true)
    (hnz : 0 ∉ name) (hd : data ≠ []) :
    write fs name data ≠ none := by
  obtain ⟨hWF, hIR⟩ := reachable_WF_InRange hr
  have hlen : ¬(name.length = 0 ∨ FILENAME_LEN < name.length) := by
    push_neg
    omega
  have hk1 : 1 ≤ blocksNeeded data := blocksNeeded_pos hd
  obtain ⟨p1, hp1⟩ := writePhase1_total hWF hIR name
  match p1 with
  | .error er =>
    rw [write_phase1_err hlen hp1]
    exact Option.noConfusion
  | .ok fs1 =>
    have hWF1 := WF_writePhase1 hWF (by omega) hp1
    by_cases hk : MAX_BLOCKS_PER_FILE < blocksNeeded data
    · rw [write_too_big hlen hp1 hk]
      exact Option.noConfusion
    · obtain ⟨⟨fs2, ar⟩, ha⟩ := allocate_blocks_total fs1 hk1 (by omega)
      match ar with
      | .error er =>
        rw [write_alloc_err hlen hp1 hk ha]
        exact Option.noConfusion
      | .ok allocated =>
        have hz : name.getLast? ≠ some 0 := fun hcon => hnz (getLast?_mem hcon)
        have hfind2 : ∃ idx, find_entry fs2 name = some idx := by
          have hent2 : fs2.entries = fs1.entries :=
            (allocate_blocks_entries_data ha).1
          rcases writePhase1_ok_inv hp1 with ⟨idx, hfe, hfb⟩ | ⟨idx, hfe, hff, heq⟩
          · exact ⟨idx, (find_entry_congr_entries hent2 name).trans
              (phase1_existing_find hfe hfb)⟩
          · refine ⟨idx, (find_entry_congr_entries hent2 name).trans ?_⟩
            rw [heq]
            exact find_entry_set_of_none hfe (find_free_entry_some_lt hff)
              (entryMatches_freshEntry hv hz)
        obtain ⟨idx, hf⟩ := hfind2
        rw [write_commit_eq hlen hp1 hk ha hf]
        exact Option.noConfusion

/-- Counterexample to the original claim C10: the name `"a"` has length 1
and no NUL byte, yet `write("a", b"")` on the fresh store panics (models
as `none`): with `blocks_needed = 0` the allocation loop's break never
fires, it marks every free block, and `out[found]` overflows the
16-slot output array once 16 free blocks have been taken. -/
theorem c10_counterexample :
    1 ≤ ([97] : List Nat).length ∧ ([97] : List Nat).length ≤ FILENAME_LEN ∧
    validUtf8 [97] = true ∧ 0 ∉ ([97] : List Nat) ∧
    write SimpleFs.new [97] [] = none := by
  refine ⟨by decide, by decide, by decide, by decide, ?_⟩
  rfl

/-- Witness for `c10_write_no_panic` at the fresh store, name `"a"`,
payload `[1]`. -/
theorem c10_witness : write SimpleFs.new [97] [1] ≠ none :=
  @c10_write_no_panic SimpleFs.new [97] [1] Reachable.init (by decide)
    (by decide) (by decide) (by decide) (by decide)

/-! ## Free-count accounting, the seed store, and claims C3 and C7 -/


/-! ### Free-block counting -/

theorem getElem?_some_lt {l : List α} {x : Nat} {a : α}
    (h : l[x]? = some a) : x < l.length := by
  by_contra hlt
  rw [List.getElem?_eq_none (by omega)] at h
  exact Option.noConfusion h

theorem countP_set_false {m : List Bool} {x : Nat} (h : m[x]? = some true) :
    (m.set x false).countP (fun b => !b) = m.countP (fun b => !b) + 1 := by
  induction m generalizing x with
  | nil => cases h
  | cons b rest ih =>
    cases x with
    | zero =>
      rw [List.getElem?_cons_zero, Option.some.injEq] at h
      subst h
      simp [List.countP_cons]
    | succ k =>
      rw [List.getElem?_cons_succ] at h
      simp only [List.set_cons_succ, List.countP_cons]
      rw [ih h]
      omega

theorem countP_set_true {m : List Bool} {x : Nat} (h : m[x]? = some false) :
    (m.set x true).countP (fun b => !b) + 1 = m.countP (fun b => !b) := by
  induction m generalizing x with
  | nil => cases h
  | cons b rest ih =>
    cases x with
    | zero =>
      rw [List.getElem?_cons_zero, Option.some.injEq] at h
      subst h
      simp [List.countP_cons]
    | succ k =>
      rw [List.getElem?_cons_succ] at h
      simp only [List.set_cons_succ, List.countP_cons]
      rw [← ih h]
      omega

theorem countP_pointwise_free {S : List Nat} :
    ∀ {m m' : List Bool}, m'.length = m.length → S.Nodup →
    (∀ x ∈ S, m[x]? = some true) →
    (∀ p, m'[p]? = if p ∈ S then some false else m[p]?) →
    m'.countP (fun b => !b) = m.countP (fun b => !b) + S.length := by
  induction S with
  | nil =>
    intro m m' hlen _ _ hpt
    have hmm : m' = m := List.ext_getElem? (fun p => by simpa using hpt p)
    rw [hmm, List.length_nil, Nat.add_zero]
  | cons x S' ih =>
    intro m m' hlen hnd hmem hpt
    have hxS' : x ∉ S' := (List.nodup_cons.mp hnd).1
    have hxm : m[x]? = some true := hmem x (List.mem_cons_self x S')
    have hxlt : x < m.length := getElem?_some_lt hxm
    have hstep := @ih (m.set x false) m'
      (by rw [List.length_set]; exact hlen)
      (List.nodup_cons.mp hnd).2
      (fun y hy => by
        rw [List.getElem?_set_ne (fun hh => hxS' (by rw [hh]; exact hy))]
        exact hmem y (List.mem_cons_of_mem _ hy))
      (fun p => by
        rw [hpt p]
        rcases eq_or_ne p x with rfl | hpx
        · simp only [List.mem_cons, true_or, if_true]
          by_cases hpS : p ∈ S'
          · simp [hpS]
          · simp only [hpS, if_false]
            rw [List.getElem?_set_eq_of_lt _ hxlt]
        · simp only [List.mem_cons, hpx, false_or]
          by_cases hpS : p ∈ S'
          · simp [hpS]
          · simp only [hpS, if_false]
            rw [List.getElem?_set_ne (fun hh => hpx hh.symm)])
    rw [hstep, countP_set_false hxm, List.length_cons]
    omega

theorem countP_pointwise_alloc {S : List Nat} :
    ∀ {m m' : List Bool}, m'.length = m.length → S.Nodup →
    (∀ x ∈ S, m[x]? = some false) →
    (∀ p, m'[p]? = if p ∈ S then some true else m[p]?) →
    m'.countP (fun b => !b) + S.length = m.countP (fun b => !b) := by
  induction S with
  | nil =>
    intro m m' hlen _ _ hpt
    have hmm : m' = m := List.ext_getElem? (fun p => by simpa using hpt p)
    rw [hmm, List.length_nil, Nat.add_zero]
  | cons x S' ih =>
    intro m m' hlen hnd hmem hpt
    have hxS' : x ∉ S' := (List.nodup_cons.mp hnd).1
    have hxm : m[x]? = some false := hmem x (List.mem_cons_self x S')
    have hxlt : x < m.length := getElem?_some_lt hxm
    have hstep := @ih (m.set x true) m'
      (by rw [List.length_set]; exact hlen)
      (List.nodup_cons.mp hnd).2
      (fun y hy => by
        rw [List.getElem?_set_ne (fun hh => hxS' (by rw [hh]; exact hy))]
        exact hmem y (List.mem_cons_of_mem _ hy))
      (fun p => by
        rw [hpt p]
        rcases eq_or_ne p x with rfl | hpx
        · simp only [List.mem_cons, true_or, if_true]
          by_cases hpS : p ∈ S'
          · simp [hpS]
          · simp only [hpS, if_false]
            rw [List.getElem?_set_eq_of_lt _ hxlt]
        · simp only [List.mem_cons, hpx, false_or]
          by_cases hpS : p ∈ S'
          · simp [hpS]
          · simp only [hpS, if_false]
            rw [List.getElem?_set_ne (fun hh => hpx hh.symm)])
    rw [List.length_cons, ← Nat.add_assoc] at *
    rw [← countP_set_true hxm]
    omega


theorem delete_run {fs fs2 : SimpleFs} {name : List Nat} {idx : Nat}
    (hfe : find_entry fs name = some idx)
    (hfb : free_blocks { fs with entries := fs.entries.set idx defaultEntry }
      (entryAt fs idx).blocks (entryAt fs idx).blocks_used = some fs2) :
    delete fs name = some (fs2, none) := by
  unfold delete
  rw [hfe]
  simp only [hfb, Option.map_some']

/-- Claim C7 (amended): for a name not present in a reachable store and a
*non-empty* payload, a successful `write` consumes exactly
`ceil(len(data) / BLOCK_SIZE)` blocks from the pool, and a subsequent
`delete` restores the free-block count exactly.  (The original claim
held for every payload; `c7_counterexample` shows an empty payload on a
store with 16 free blocks consumes all 16 while recording
`blocks_used = 0`, and the delete then frees nothing.) -/
theorem c7_write_then_delete_free_count {fs fs' : SimpleFs}
    {name data : List Nat} (hr : Reachable fs)
    (hnew : find_entry fs name = none) (hd : 1 ≤ data.length)
    (hw : write fs name data = some (fs', none)) :
    freeCount fs' + blocksNeeded data = freeCount fs ∧
    ∃ fs'', delete fs' name = some (fs'', none) ∧
      freeCount fs'' = freeCount fs := by
  obtain ⟨hWF, hIR⟩ := reachable_WF_InRange hr
  have hr' : Reachable fs' := Reachable.writeStep hr hw
  obtain ⟨hWF', hIR'⟩ := reachable_WF_InRange hr'
  obtain ⟨fs1, fs2, allocated, idx, hlen, hp1, hk16, ha, hf, hfs'⟩ := write_ok_inv hw
  have hk1 : 1 ≤ blocksNeeded data := blocksNeeded_pos (List.length_pos.mp hd)
  have hB : BLOCKS = 64 := rfl
  have hM : MAX_BLOCKS_PER_FILE = 16 := rfl
  rcases writePhase1_ok_inv hp1 with ⟨idx0, hfe0, -⟩ | ⟨idx0, -, hff, heq1⟩
  · rw [hnew] at hfe0
    exact Option.noConfusion hfe0
  · have hidx0 : idx0 < fs.entries.length := find_free_entry_some_lt hff
    obtain ⟨hfreeList, hlenA, hpair, hprev, hlenMap, hptA⟩ :=
      allocate_ok_inv hk1 hk16 ha
    have hnd : allocated.Nodup := hpair.imp (fun h => Nat.ne_of_lt h)
    have hidx2 : idx < fs2.entries.length := find_entry_some_lt hf
    have hent21 : fs2.entries = fs1.entries := (allocate_blocks_entries_data ha).1
    have hm64 : fs1.block_map.length = BLOCKS := by rw [heq1]; exact hWF.2.1
    -- the committed slot is the fresh slot claimed in phase 1
    have hideq : idx = idx0 := by
      by_contra hne
      obtain ⟨e, he, hm⟩ := find_entry_some_hit hf
      have hsame : fs2.entries[idx]? = fs.entries[idx]? := by
        rw [hent21, heq1]
        exact List.getElem?_set_ne (fun hh => hne hh.symm)
      have hmemfs : e ∈ fs.entries :=
        List.mem_iff_getElem?.mpr ⟨idx, by rw [← hsame]; exact he⟩
      rw [find_entry_eq_none] at hnew
      rw [hnew e hmemfs] at hm
      exact Bool.noConfusion hm
    subst hideq
    have hE2 : entryAt fs2 idx = freshEntry name := by
      have hstep : entryAt fs2 idx = entryAt fs1 idx := by
        unfold entryAt
        rw [hent21]
      rw [hstep, heq1]
      exact entryAt_set_self hidx0
    -- free count: phase 1 and commit leave the bitmap alone, allocation
    -- takes exactly the returned indices
    have hfc1 : freeCount fs1 = freeCount fs := by rw [heq1]; rfl
    have hfc2 : freeCount fs2 + allocated.length = freeCount fs1 :=
      @countP_pointwise_alloc allocated fs1.block_map fs2.block_map hlenMap hnd
        (fun x hx => (hprev x hx).2) hptA
    have hfcC : freeCount fs' = freeCount fs2 := by rw [hfs']; rfl
    have hpart1 : freeCount fs' + blocksNeeded data = freeCount fs := by
      rw [hfcC, ← hlenA, hfc2, hfc1]
    refine ⟨hpart1, ?_⟩
    -- shape of the committed entry
    have htake : allocated.take (blocksNeeded data) = allocated :=
      List.take_of_length_le (le_of_eq hlenA)
    have hEC : entryAt fs' idx =
        { entryAt fs2 idx with
          blocks := setVals (entryAt fs2 idx).blocks
            (allocated.take (blocksNeeded data)) 0,
          blocks_used := blocksNeeded data, size := data.length } := by
      rw [hfs']
      unfold entryAt
      rw [writeCommit_entries, getD_eq, List.getElem?_set_eq_of_lt _ hidx2]
      rfl
    have hblocks : (entryAt fs' idx).blocks =
        allocated ++ List.replicate (MAX_BLOCKS_PER_FILE - allocated.length) 255 := by
      rw [hEC]
      show setVals (entryAt fs2 idx).blocks (allocated.take (blocksNeeded data)) 0 = _
      rw [hE2, htake]
      show setVals (List.replicate MAX_BLOCKS_PER_FILE 255) allocated 0 = _
      rw [setVals_replicate (by rw [hlenA]; exact hk16)]
    have hbu : (entryAt fs' idx).blocks_used = blocksNeeded data := by rw [hEC]
    have hfind' : find_entry fs' name = some idx := by
      rw [hfs']
      exact (writeCommit_find hidx2 name).trans hf
    -- run delete
    have hbll : (entryAt fs' idx).blocks.length = MAX_BLOCKS_PER_FILE := by
      rw [hblocks, List.length_append, List.length_replicate, hlenA]
      omega
    have htakeB : (entryAt fs' idx).blocks.take ((entryAt fs' idx).blocks_used) =
        allocated := by
      rw [hbu, hblocks, ← hlenA, List.take_left]
    obtain ⟨fs'', hfb2, hent2, hml2, hdl2, hpm2, hpd2⟩ := free_blocks_spec
      { fs' with entries := fs'.entries.set idx defaultEntry }
      (entryAt fs' idx).blocks (entryAt fs' idx).blocks_used
      (by rw [hbu, hbll]; exact hk16)
      (fun b hb => by
        rw [htakeB] at hb
        right
        have := (hprev b hb).1
        omega)
      hWF'.2.1 hWF'.2.2.1
    have hfreed : freedSet (entryAt fs' idx).blocks ((entryAt fs' idx).blocks_used) =
        allocated := by
      unfold freedSet
      rw [htakeB]
      refine List.filter_eq_self.mpr (fun b hb => ?_)
      have := (hprev b hb).1
      simp only [bne_iff_ne, ne_eq]
      omega
    have hptF : ∀ p, fs''.block_map[p]? =
        if p ∈ allocated then some false else fs'.block_map[p]? := by
      intro p
      rw [hpm2 p, hfreed]
    have hmemT : ∀ x ∈ allocated, fs'.block_map[x]? = some true := by
      intro x hx
      have hgoal : fs2.block_map[x]? = some true := by
        rw [hptA x, if_pos hx]
      rw [hfs']
      exact hgoal
    have hcount : fs''.block_map.countP (fun b => !b) =
        fs'.block_map.countP (fun b => !b) + allocated.length :=
      @countP_pointwise_free allocated fs'.block_map fs''.block_map
        (by rw [hml2, hfs']) hnd hmemT hptF
    refine ⟨fs'', delete_run hfind' hfb2, ?_⟩
    show fs''.block_map.countP (fun b => !b) = freeCount fs
    rw [hcount, hlenA]
    exact hpart1


/-- One seeding step: write a 769-byte zero payload (4 blocks) under the
one-byte name `c`. -/
def wrSeed (fs : SimpleFs) (c : Nat) : SimpleFs :=
  ((write fs [c] (List.replicate 769 0)).getD (SimpleFs.new, none)).1

/-- A store with 12 four-block files `"a"`..`"l"`: 48 of the 64 blocks
in use, 16 free, 4 file-table slots free. -/
def seedFs : SimpleFs :=
  wrSeed (wrSeed (wrSeed (wrSeed (wrSeed (wrSeed (wrSeed (wrSeed (wrSeed
    (wrSeed (wrSeed (wrSeed SimpleFs.new 97) 98) 99) 100) 101) 102) 103)
    104) 105) 106) 107) 108

theorem seed_step (fs : SimpleFs) (c : Nat) (h : Reachable fs)
    (hok : write fs [c] (List.replicate 769 0) = some (wrSeed fs c, none)) :
    Reachable (wrSeed fs c) := .writeStep h hok

set_option maxRecDepth 100000 in
theorem seedFs_reachable : Reachable seedFs :=
  seed_step _ 108 (seed_step _ 107 (seed_step _ 106 (seed_step _ 105
    (seed_step _ 104 (seed_step _ 103 (seed_step _ 102 (seed_step _ 101
    (seed_step _ 100 (seed_step _ 99 (seed_step _ 98 (seed_step _ 97
    .init (by rfl)) (by rfl)) (by rfl)) (by rfl)) (by rfl)) (by rfl))
    (by rfl)) (by rfl)) (by rfl)) (by rfl)) (by rfl)) (by rfl)


set_option maxRecDepth 100000 in
/-- Claim C3: refuted — code bug.  `seedFs` is reachable from the empty
store and satisfies the bitmap/table agreement invariant, yet one more
reachable step — `write("m", b"")`, a name not yet present — returns
`Ok` and leaves a state where the invariant fails: `allocate_blocks(0)`
marks all 16 remaining free blocks in-use (its `found == blocks_needed`
break never fires for 0), while the new entry records `blocks_used = 0`,
so 16 bitmap bits are set with no owning entry. -/
theorem c3_bitmap_table_agreement_broken :
    Reachable seedFs ∧ FsInv seedFs ∧
    ∃ fsb, write seedFs [109] [] = some (fsb, none) ∧ ¬ FsInv fsb :=
  ⟨seedFs_reachable, by decide,
    ((write seedFs [109] []).getD (SimpleFs.new, none)).1, by decide, by decide⟩

set_option maxRecDepth 100000 in
/-- Counterexample to the original claim C7: on the reachable store
`seedFs` (16 free blocks), writing the absent name `"m"` with an empty
payload (required block count 0) succeeds but drops the free-block count
from 16 to 0, and the subsequent `delete` frees nothing (the entry
records `blocks_used = 0`), leaving the count at 0 instead of restoring
16. -/
theorem c7_counterexample :
    find_entry seedFs [109] = none ∧ blocksNeeded [] = 0 ∧
    freeCount seedFs = 16 ∧
    ∃ fsb, write seedFs [109] [] = some (fsb, none) ∧ freeCount fsb = 0 ∧
      ∃ fsc, delete fsb [109] = some (fsc, none) ∧ freeCount fsc = 0 :=
  ⟨by decide, by decide, by decide,
    ((write seedFs [109] []).getD (SimpleFs.new, none)).1, by decide, by decide,
    ((delete ((write seedFs [109] []).getD (SimpleFs.new, none)).1 [109]).getD
      (SimpleFs.new, none)).1, by decide, by decide⟩

set_option maxRecDepth 100000 in
/-- Witness for `c7_write_then_delete_free_count`: writing one byte under
the fresh name `"a"` on the empty store consumes exactly one block, and
deleting it restores the free count. -/
theorem c7_witness :
    freeCount ((write SimpleFs.new [97] [7]).getD (SimpleFs.new, none)).1 +
      blocksNeeded [7] = freeCount SimpleFs.new ∧
    ∃ fs2, delete ((write SimpleFs.new [97] [7]).getD (SimpleFs.new, none)).1
        [97] = some (fs2, none) ∧ freeCount fs2 = freeCount SimpleFs.new :=
  @c7_write_then_delete_free_count SimpleFs.new
    ((write SimpleFs.new [97] [7]).getD (SimpleFs.new, none)).1 [97] [7]
    Reachable.init (by decide) (by decide) (by rfl)

/-! ## Claim C1: the too-many-blocks check happens after mutation -/


/-- Claim C1 (amended): when the required block count exceeds
`MAX_BLOCKS_PER_FILE` and the name already exists, `write` does fail
with `TooManyBlocks`, but only *after* the phase-1 mutation: in the
returned state the named entry still exists in its slot but has been
reset to `size = 0`, `blocks_used = 0`, and every real block index it
previously owned has been marked free and had its backing storage
zeroed.  (The original claim said the store is exactly as it was before
the call; `c1_counterexample` exhibits the lost size, freed block and
zeroed contents.) -/
theorem c1_write_too_big_after_reset {fs : SimpleFs} {name data : List Nat}
    {idx : Nat} (hr : Reachable fs)
    (hlo : 1 ≤ name.length) (hhi : name.length ≤ FILENAME_LEN)
    (hk : MAX_BLOCKS_PER_FILE < blocksNeeded data)
    (hfe : find_entry fs name = some idx) :
    ∃ fs1, write fs name data = some (fs1, some .TooManyBlocks) ∧
      find_entry fs1 name = some idx ∧
      (entryAt fs1 idx).size = 0 ∧
      (entryAt fs1 idx).blocks_used = 0 ∧
      (∀ b ∈ freedSet (entryAt fs idx).blocks (entryAt fs idx).blocks_used,
        fs1.block_map[b]? = some false ∧
        fs1.data[b]? = some (List.replicate BLOCK_SIZE 0)) := by
  obtain ⟨hWF, hIR⟩ := reachable_WF_InRange hr
  have hlen : ¬(name.length = 0 ∨ FILENAME_LEN < name.length) := by
    push_neg
    omega
  have hidx : idx < fs.entries.length := find_entry_some_lt hfe
  have hmem : entryAt fs idx ∈ fs.entries := getD_mem hidx
  have hbl := (hWF.2.2.2.1 _ hmem).2
  have hbu := (hIR _ hmem).1
  obtain ⟨fs1, hfb, hent, hlm, hld, hpm, hpd⟩ := free_blocks_spec
    { fs with entries := fs.entries.set idx (clearedEntry (entryAt fs idx)) }
    (entryAt fs idx).blocks (entryAt fs idx).blocks_used
    (by omega)
    (fun b hb => (hIR _ hmem).2 b (List.take_subset _ _ hb))
    hWF.2.1 hWF.2.2.1
  have hp1 : writePhase1 fs name = some (.ok fs1) :=
    (writePhase1_existing hfe).trans (by rw [hfb]; rfl)
  have hE : entryAt fs1 idx = clearedEntry (entryAt fs idx) := by
    unfold entryAt
    rw [hent]
    exact entryAt_set_self hidx
  refine ⟨fs1, write_too_big hlen hp1 hk, phase1_existing_find hfe hfb,
    by rw [hE]; rfl, by rw [hE]; rfl, ?_⟩
  intro b hb
  constructor
  · rw [hpm b, if_pos hb]
  · rw [hpd b, if_pos hb]

/-- The store holding one file `"a"` of size 1 (contents `[7]`),
occupying block 0: the result of `write(new, "a", [7])`. -/
def fsA : SimpleFs := ((write SimpleFs.new [97] [7]).getD (SimpleFs.new, none)).1

/-- The state `fsA` is left in by phase 1 of a `write` to `"a"`: entry
reset, block 0 freed and zeroed. -/
def fsB : SimpleFs :=
  match writePhase1 fsA [97] with
  | some (.ok x) => x
  | _ => SimpleFs.new

theorem blocksNeeded_4097 :
    MAX_BLOCKS_PER_FILE < blocksNeeded (List.replicate 4097 0) := by
  unfold blocksNeeded
  rw [List.length_replicate]
  decide

set_option maxRecDepth 8192 in
theorem fsB_phase1 : writePhase1 fsA [97] = some (.ok fsB) := by decide

set_option maxRecDepth 8192 in
/-- Counterexample to the original claim C1: on a store holding `"a"`
with size 1 in block 0, `write("a", 4097 bytes)` needs 17 > 16 blocks
and fails `TooManyBlocks` — but the store is *not* as it was before the
call: the entry's size drops from 1 to 0, block 0 is marked free, and
its contents are zeroed. -/
theorem c1_counterexample :
    MAX_BLOCKS_PER_FILE < blocksNeeded (List.replicate 4097 0) ∧
    write fsA [97] (List.replicate 4097 0) = some (fsB, some .TooManyBlocks) ∧
    (entryAt fsA 0).size = 1 ∧
    fsA.block_map[0]? = some true ∧
    fsA.data[0]? ≠ some (List.replicate BLOCK_SIZE 0) ∧
    (entryAt fsB 0).size = 0 ∧
    fsB.block_map[0]? = some false ∧
    fsB.data[0]? = some (List.replicate BLOCK_SIZE 0) :=
  ⟨blocksNeeded_4097,
    write_too_big (by decide) fsB_phase1 blocksNeeded_4097,
    by decide, by decide, by decide, by decide, by decide, by decide⟩

set_option maxRecDepth 8192 in
/-- Witness for `c1_write_too_big_after_reset` at the store `fsA`,
name `"a"`, payload of 4097 zero bytes. -/
theorem c1_witness :
    ∃ fs1, write fsA [97] (List.replicate 4097 0) =
        some (fs1, some .TooManyBlocks) ∧
      find_entry fs1 [97] = some 0 ∧
      (entryAt fs1 0).size = 0 ∧
      (entryAt fs1 0).blocks_used = 0 ∧
      (∀ b ∈ freedSet (entryAt fsA 0).blocks (entryAt fsA 0).blocks_used,
        fs1.block_map[b]? = some false ∧
        fs1.data[b]? = some (List.replicate BLOCK_SIZE 0)) :=
  @c1_write_too_big_after_reset fsA [97] (List.replicate 4097 0) 0
    (@Reachable.writeStep SimpleFs.new fsA [97] [7] none Reachable.init (by rfl))
    (by decide) (by decide)
    (by unfold blocksNeeded; rw [List.length_replicate]; decide)
    (by decide)

/-! ## Claim C2: the write/read round-trip law -/


theorem read_into_found {fs : SimpleFs} {name buf : List Nat} {idx : Nat}
    (h : find_entry fs name = some idx) :
    read_into fs name buf =
      (readGo fs.data (entryAt fs idx).blocks (entryAt fs idx).blocks_used buf 0
        (min buf.length (entryAt fs idx).size)).map (fun r => (r.1, .ok r.2)) := by
  unfold read_into
  rw [h]

/-- The slot a post-phase-1 lookup finds holds a fully reset block list
(the sentinel-filled array), in both the existing-name and the new-name
branch. -/
theorem phase1_found_blocks {fs fs1 : SimpleFs} {name : List Nat} {idx : Nat}
    (hp1 : writePhase1 fs name = some (.ok fs1))
    (hf1 : find_entry fs1 name = some idx) :
    (entryAt fs1 idx).blocks = List.replicate MAX_BLOCKS_PER_FILE 255 := by
  rcases writePhase1_ok_inv hp1 with ⟨idxP, hfeP, hfbP⟩ | ⟨idxP, hfeP, hffP, heq1⟩
  · have hfindP := phase1_existing_find hfeP hfbP
    rw [hf1] at hfindP
    have hideq : idx = idxP := Option.some.inj hfindP
    subst hideq
    have hidxP : idx < fs.entries.length := find_entry_some_lt hfeP
    have hent1 : fs1.entries = fs.entries.set idx (clearedEntry (entryAt fs idx)) :=
      (free_blocks_shape hfbP).1
    have hE : entryAt fs1 idx = clearedEntry (entryAt fs idx) := by
      unfold entryAt
      rw [hent1]
      exact entryAt_set_self hidxP
    rw [hE]
    rfl
  · have hidxP : idxP < fs.entries.length := find_free_entry_some_lt hffP
    have hideq : idx = idxP := by
      by_contra hne
      obtain ⟨e, he, hm⟩ := find_entry_some_hit hf1
      have hsame : fs1.entries[idx]? = fs.entries[idx]? := by
        rw [heq1]
        exact List.getElem?_set_ne (fun hh => hne hh.symm)
      have hmemfs : e ∈ fs.entries :=
        List.mem_iff_getElem?.mpr ⟨idx, by rw [← hsame]; exact he⟩
      rw [find_entry_eq_none] at hfeP
      rw [hfeP e hmemfs] at hm
      exact Bool.noConfusion hm
    subst hideq
    have hE : entryAt fs1 idx = freshEntry name := by
      rw [heq1]
      exact entryAt_set_self hidxP
    rw [hE]
    rfl

/-- Claim C2: the round-trip law.  On a reachable store, for a name of
length 1 through `FILENAME_LEN` and a payload within the 16-block size
cap, if `write(name, data)` returns `Ok` then `read_into(name, buf)`
with `len(buf) ≥ len(data)` returns `Ok(len(data))` and the first
`len(data)` bytes of the buffer equal `data`. -/
theorem c2_write_read_roundtrip {fs fs' : SimpleFs} {name data buf : List Nat}
    (hWF : WF fs) (hlo : 1 ≤ name.length)
    (hhi : name.length ≤ FILENAME_LEN)
    (hcap : data.length ≤ MAX_BLOCKS_PER_FILE * BLOCK_SIZE)
    (hbuf : data.length ≤ buf.length)
    (hw : write fs name data = some (fs', none)) :
    ∃ buf', read_into fs' name buf = some (buf', .ok data.length) ∧
      buf'.take data.length = data ∧ buf'.length = buf.length := by
  obtain ⟨fs1, fs2, allocated, idx, hlen, hp1, hk16, ha, hf, hfs'⟩ := write_ok_inv hw
  subst hfs'
  have hWF1 : WF fs1 := WF_writePhase1 hWF hhi hp1
  have hWF2 : WF fs2 := WF_allocate hWF1 ha
  have hent21 : fs2.entries = fs1.entries := (allocate_blocks_entries_data ha).1
  have hidx2 : idx < fs2.entries.length := find_entry_some_lt hf
  have hf1 : find_entry fs1 name = some idx :=
    (find_entry_congr_entries hent21 name).symm.trans hf
  have hE2blocks : (entryAt fs2 idx).blocks =
      List.replicate MAX_BLOCKS_PER_FILE 255 := by
    have hstep : entryAt fs2 idx = entryAt fs1 idx := by
      unfold entryAt
      rw [hent21]
    rw [hstep]
    exact phase1_found_blocks hp1 hf1
  have hkval : blocksNeeded data = (data.length + 255) / 256 := rfl
  have hfind' : find_entry (writeCommit fs2 data (blocksNeeded data) allocated idx)
      name = some idx := (writeCommit_find hidx2 name).trans hf
  have hEC : entryAt (writeCommit fs2 data (blocksNeeded data) allocated idx) idx =
      { entryAt fs2 idx with
        blocks := setVals (entryAt fs2 idx).blocks
          (allocated.take (blocksNeeded data)) 0,
        blocks_used := blocksNeeded data, size := data.length } := by
    unfold entryAt
    rw [writeCommit_entries, getD_eq, List.getElem?_set_eq_of_lt _ hidx2]
    rfl
  have hPused : (entryAt (writeCommit fs2 data (blocksNeeded data) allocated idx)
      idx).blocks_used = blocksNeeded data := by rw [hEC]
  have hPsize : (entryAt (writeCommit fs2 data (blocksNeeded data) allocated idx)
      idx).size = data.length := by rw [hEC]
  by_cases hk0 : blocksNeeded data = 0
  · have hd0 : data.length = 0 := by
      have : blocksNeeded data = (data.length + 255) / 256 := rfl
      omega
    have hdnil : data = [] := List.length_eq_zero.mp hd0
    refine ⟨buf, ?_, by rw [hd0, List.take_zero, hdnil], rfl⟩
    rw [read_into_found hfind', hPused, hPsize, hk0, hd0, Nat.min_zero,
      readGo_count_zero]
    rfl
  · -- at least one block was allocated
    have hk1 : 1 ≤ blocksNeeded data := by omega
    obtain ⟨hfreeList, hlenA, hpair, hprev, hlenMap, hptA⟩ :=
      allocate_ok_inv hk1 hk16 ha
    have hnd : allocated.Nodup := hpair.imp (fun h => Nat.ne_of_lt h)
    have htake : allocated.take (blocksNeeded data) = allocated :=
      List.take_of_length_le (le_of_eq hlenA)
    have hPblocks : (entryAt (writeCommit fs2 data (blocksNeeded data) allocated
        idx) idx).blocks =
        allocated ++ List.replicate (MAX_BLOCKS_PER_FILE - blocksNeeded data) 255 := by
      rw [hEC]
      show setVals (entryAt fs2 idx).blocks (allocated.take (blocksNeeded data)) 0 = _
      rw [htake, hE2blocks, setVals_replicate (by rw [hlenA]; exact hk16), hlenA]
    have hcd : (writeCommit fs2 data (blocksNeeded data) allocated idx).data =
        storeChunks fs2.data data allocated 0 := by
      rw [writeCommit_data, htake]
    have hd64 : fs2.data.length = BLOCKS := hWF2.2.2.1
    have hm64 : fs1.block_map.length = BLOCKS := hWF1.2.1
    have hB : BLOCKS = 64 := rfl
    have hrun := readGo_run
      (writeCommit fs2 data (blocksNeeded data) allocated idx).data data allocated
      (List.replicate (MAX_BLOCKS_PER_FILE - blocksNeeded data) 255) buf 0
      (fun j bj hj => by
        rw [hcd]
        have hbmem : bj ∈ allocated := List.mem_iff_getElem?.mpr ⟨j, hj⟩
        have hblt : bj < fs2.data.length := by
          have := (hprev bj hbmem).1
          omega
        exact storeChunks_getElem?_mem hnd j bj hj hblt)
      (fun b hb => by
        have := (hprev b hb).1
        omega)
      (by
        rw [Nat.zero_add, hlenA]
        show data.length ≤ 256 * ((data.length + 255) / 256)
        omega)
      hbuf
    rw [Nat.mul_zero, Nat.sub_zero, List.take_zero, List.drop_zero,
      List.nil_append, Nat.zero_add, hlenA] at hrun
    refine ⟨data ++ buf.drop data.length, ?_, take_append_exact, ?_⟩
    · rw [read_into_found hfind', hPused, hPsize, hPblocks,
        Nat.min_eq_right hbuf, hrun]
      rfl
    · rw [List.length_append, List.length_drop]
      omega

set_option maxRecDepth 8192 in
/-- Witness for `c2_write_read_roundtrip`: write `[7]` under `"a"` on the
empty store, then read it back through a 2-byte buffer. -/
theorem c2_witness :
    ∃ buf', read_into ((write SimpleFs.new [97] [7]).getD (SimpleFs.new, none)).1
        [97] [9, 9] = some (buf', .ok ([7] : List Nat).length) ∧
      buf'.take ([7] : List Nat).length = [7] ∧
      buf'.length = ([9, 9] : List Nat).length :=
  @c2_write_read_roundtrip SimpleFs.new
    ((write SimpleFs.new [97] [7]).getD (SimpleFs.new, none)).1 [97] [7] [9, 9]
    (by decide) (by decide) (by decide) (by decide) (by decide) (by rfl)

end CogFs
